import Mathlib

/-!
# Verification of Johnson's all-pairs shortest-paths implementation

A shallow embedding of `src/main.rs` (Johnson's algorithm: Bellman-Ford
potentials, reweighting, repeated Dijkstra), together with proofs of the
specification's claims.

Modelling conventions:
* `i32` values are modelled as unbounded `Int` (overflow is out of scope);
  the source's `i32::MAX` sentinel test is kept literally as `i32MAX`.
* Rust vector indexing panics when out of bounds; every indexing operation
  is modelled by a checked lookup `l[i]?`, and each function that can panic
  returns an `Option`, `none` meaning a panic (or, for the fuelled Dijkstra
  loop, fuel exhaustion; the fuel bound is proved sufficient whenever edge
  weights are non-negative, which is the only way the program reaches it).
* Rust's `BinaryHeap` is a max-heap over the manually implemented `Ord` on
  `State`; it is modelled as a list with `heapPop` extracting a maximal
  element under the same comparison function.
-/

namespace APSP

/-- `i32::MAX`, kept literally from the source's guard in Bellman-Ford. -/
def i32MAX : Int := 2147483647

/-- An edge in the adjacency list (`struct Edge { to, weight }`; the field
`to` is spelled `to'` because `to` is a reserved token in this Lean setup). -/
structure Edge where
  to' : Nat
  weight : Int
deriving DecidableEq, Repr

/-- Priority-queue entry (`struct State { cost, position }`). -/
structure State where
  cost : Int
  position : Nat
deriving DecidableEq, Repr

/-- The manual `Ord` implementation on `State`:
`other.cost.cmp(&self.cost).then_with(|| self.position.cmp(&other.position))`. -/
def State.cmp (s other : State) : Ordering :=
  (compare other.cost s.cost).then (compare s.position other.position)

/-- Scan a list keeping the running maximum (under `State.cmp`) and the
remaining elements; models `BinaryHeap::pop` extracting the greatest entry. -/
def popMaxAux : State → List State → State × List State
  | s, [] => (s, [])
  | s, t :: rest =>
    if State.cmp s t = Ordering.lt then
      ((popMaxAux t rest).1, s :: (popMaxAux t rest).2)
    else
      ((popMaxAux s rest).1, t :: (popMaxAux s rest).2)

/-- `BinaryHeap::pop`: `none` on the empty heap, otherwise a maximal element
(under the `State` ordering) and the rest of the heap. -/
def heapPop : List State → Option (State × List State)
  | [] => none
  | s :: rest => some (popMaxAux s rest)

/-! ## Bellman-Ford (`bellman_ford` in the source) -/

/-- One pass of `for edge in &adj_list[u]` inside a relaxation round:
`if dist[u] != i32::MAX && dist[u] + edge.weight < dist[edge.to']` (with the
short-circuit: `dist[edge.to']` is only read when `dist[u] != i32::MAX`),
updating `dist[edge.to']` and the `changed` flag. `none` models a panic. -/
def relaxRow (u : Nat) : List Edge → List Int → Bool → Option (List Int × Bool)
  | [], dist, changed => some (dist, changed)
  | e :: rest, dist, changed =>
    match dist[u]? with
    | none => none
    | some du =>
      if du = i32MAX then
        relaxRow u rest dist changed
      else
        match dist[e.to']? with
        | none => none
        | some dv =>
          if du + e.weight < dv then
            relaxRow u rest (dist.set e.to' (du + e.weight)) true
          else
            relaxRow u rest dist changed

/-- The `for u in 0..num_nodes` loop of one relaxation round, driven by the
list of vertices still to process. -/
def relaxVerts (adj : List (List Edge)) : List Nat → List Int → Bool →
    Option (List Int × Bool)
  | [], dist, changed => some (dist, changed)
  | u :: us, dist, changed =>
    match adj[u]? with
    | none => none
    | some row =>
      match relaxRow u row dist changed with
      | none => none
      | some dc => relaxVerts adj us dc.1 dc.2

/-- The inner `for edge in &adj_list[u]` of the negative-cycle check;
`some true` means an edge that still relaxes was found (early `return None`
in the source). -/
def checkRow (u : Nat) : List Edge → List Int → Option Bool
  | [], _ => some false
  | e :: rest, dist =>
    match dist[u]? with
    | none => none
    | some du =>
      if du = i32MAX then checkRow u rest dist
      else
        match dist[e.to']? with
        | none => none
        | some dv =>
          if du + e.weight < dv then some true
          else checkRow u rest dist

/-- The `for u in 0..num_nodes` loop of the negative-cycle check.  The inner
`Option (List Int)` is the source's return value (`None` = negative cycle),
the outer `Option` models panics. -/
def checkVerts (adj : List (List Edge)) : List Nat → List Int →
    Option (Option (List Int))
  | [], dist => some (some dist)
  | u :: us, dist =>
    match adj[u]? with
    | none => none
    | some row =>
      match checkRow u row dist with
      | none => none
      | some true => some none
      | some false => checkVerts adj us dist

/-- The `for _ in 0..num_nodes` relaxation loop, counting rounds still to
run; when the rounds are exhausted the negative-cycle check runs.  A round
with `changed == false` returns `Some(dist)` early, skipping the check. -/
def bfLoop (adj : List (List Edge)) (n : Nat) :
    Nat → List Int → Option (Option (List Int))
  | 0, dist => checkVerts adj (List.range n) dist
  | r + 1, dist =>
    match relaxVerts adj (List.range n) dist false with
    | none => none
    | some dc =>
      if dc.2 = false then some (some dc.1)
      else bfLoop adj n r dc.1

/-- `bellman_ford`: distances start at `0` (the virtual-source trick), then
`num_nodes` rounds of relaxation with early exit, then the check.
Outer `none` = panic; inner `none` = `NegativeCycleDetected`. -/
def bellman_ford (adj_list : List (List Edge)) (num_nodes : Nat) :
    Option (Option (List Int)) :=
  bfLoop adj_list num_nodes num_nodes (List.replicate num_nodes 0)

/-! ## Dijkstra (`dijkstra` in the source) -/

/-- The `for edge in &adj_list[position]` body of Dijkstra: for each edge
compute `next_cost = cost + edge.weight`, and when it improves `dist[edge.to']`
(or that entry is still `None`), record it and push a new `State`. -/
def dijkstraRelax (cost : Int) : List Edge → List (Option Int) → List State →
    Option (List (Option Int) × List State)
  | [], dist, heap => some (dist, heap)
  | e :: rest, dist, heap =>
    match dist[e.to']? with
    | none => none
    | some dv =>
      let next_cost := cost + e.weight
      let is_shorter : Bool :=
        match dv with
        | some d => next_cost < d
        | none => true
      if is_shorter then
        dijkstraRelax cost rest (dist.set e.to' (some next_cost))
          (⟨next_cost, e.to'⟩ :: heap)
      else
        dijkstraRelax cost rest dist heap

/-- The `while let Some(State { cost, position }) = heap.pop()` loop,
with fuel to make it a total function (the loop diverges on graphs with
negative-weight cycles reachable from the start).  `none` is a panic or
fuel exhaustion; `dijkstra_fuel_sufficient` below proves the fuel chosen in
`dijkstra` is never exhausted when all edge weights are non-negative. -/
def dijkstraLoop (adj : List (List Edge)) :
    Nat → List (Option Int) → List State → Option (List (Option Int))
  | 0, _, _ => none
  | fuel + 1, dist, heap =>
    match heapPop heap with
    | none => some dist
    | some (s, rest) =>
      match dist[s.position]? with
      | none => none
      | some dcur =>
        if (match dcur with
            | some d => s.cost > d
            | none => false : Bool) then
          dijkstraLoop adj fuel dist rest
        else
          match adj[s.position]? with
          | none => none
          | some row =>
            match dijkstraRelax s.cost row dist rest with
            | none => none
            | some dh => dijkstraLoop adj fuel dh.1 dh.2

/-- Total number of edges of an adjacency list. -/
def edgeCount (adj : List (List Edge)) : Nat :=
  (adj.map List.length).sum

/-- `dijkstra`: distances all `None` except `dist[start_node] = Some(0)`
(a panicking write if `start_node` is out of range), then the pop/relax loop.
The fuel `edgeCount adj_list + 2` is an upper bound on the number of loop
iterations whenever all weights are non-negative (proved below); it is a
termination device only, not part of the source's behaviour. -/
def dijkstra (adj_list : List (List Edge)) (start_node : Nat) :
    Option (List (Option Int)) :=
  let n := adj_list.length
  if start_node < n then
    dijkstraLoop adj_list (edgeCount adj_list + 2)
      ((List.replicate n (none : Option Int)).set start_node (some 0))
      [⟨0, start_node⟩]
  else none

/-! ## Johnson's algorithm (`johnsons_algorithm` in the source) -/

/-- `for (u, v, w) in &edges { adj_list[*u].push(Edge { to: *v, weight: *w }) }`;
the index `adj_list[*u]` panics when `u` is out of range (no check on `v`). -/
def buildAdj : List (Nat × Nat × Int) → List (List Edge) →
    Option (List (List Edge))
  | [], adj => some adj
  | (u, v, w) :: rest, adj =>
    match adj[u]? with
    | none => none
    | some row => buildAdj rest (adj.set u (row ++ [⟨v, w⟩]))

/-- Reweighting one row: `new_weight = edge.weight + h[u] - h[edge.to']`. -/
def reweightRow (h : List Int) (u : Nat) : List Edge → Option (List Edge)
  | [] => some []
  | e :: rest =>
    match h[u]?, h[e.to']? with
    | some hu, some hv =>
      match reweightRow h u rest with
      | some r => some (⟨e.to', e.weight + hu - hv⟩ :: r)
      | none => none
    | _, _ => none

/-- The `for u in 0..num_nodes` reweighting loop, building the reweighted
adjacency list row by row. -/
def reweightAll (adj : List (List Edge)) (h : List Int) :
    List Nat → Option (List (List Edge))
  | [] => some []
  | u :: us =>
    match adj[u]? with
    | none => none
    | some row =>
      match reweightRow h u row, reweightAll adj h us with
      | some r, some rs => some (r :: rs)
      | _, _ => none

/-- Un-reweighting one Dijkstra result row:
`Some(d) => Some(d - h[u] + h[v]), None => None` (note `h` is only read in
the `Some` branch). -/
def unReweight (h : List Int) (u : Nat) (dPrime : List (Option Int)) :
    List Nat → Option (List (Option Int))
  | [] => some []
  | v :: vs =>
    match dPrime[v]? with
    | none => none
    | some entry =>
      match entry with
      | some d =>
        match h[u]?, h[v]? with
        | some hu, some hv =>
          match unReweight h u dPrime vs with
          | some r => some (some (d - hu + hv) :: r)
          | none => none
        | _, _ => none
      | none =>
        match unReweight h u dPrime vs with
        | some r => some (none :: r)
        | none => none

/-- The `for u in 0..num_nodes` loop running Dijkstra from every vertex and
un-reweighting each row. -/
def apspRows (radj : List (List Edge)) (h : List Int) (n : Nat) :
    List Nat → Option (List (List (Option Int)))
  | [] => some []
  | u :: us =>
    match dijkstra radj u with
    | none => none
    | some dPrime =>
      match unReweight h u dPrime (List.range n), apspRows radj h n us with
      | some row, some rows => some (row :: rows)
      | _, _ => none

/-- `johnsons_algorithm`: build the adjacency list, run Bellman-Ford
(`Err("Negative Cycle Detected")` when it returns `None`), reweight, run
Dijkstra from every vertex, un-reweight.  Outer `none` = panic. -/
def johnsons_algorithm (num_nodes : Nat) (edges : List (Nat × Nat × Int)) :
    Option (Except String (List (List (Option Int)))) :=
  match buildAdj edges (List.replicate num_nodes []) with
  | none => none
  | some adj =>
    match bellman_ford adj num_nodes with
    | none => none
    | some none => some (Except.error "Negative Cycle Detected")
    | some (some h) =>
      match reweightAll adj h (List.range num_nodes) with
      | none => none
      | some radj =>
        match apspRows radj h num_nodes (List.range num_nodes) with
        | none => none
        | some m => some (Except.ok m)

/-! ## Specification-level notions: walks, negative cycles, shortest distances -/

/-- `chainW E u l v`: the step list `l` (each step a target vertex and an edge
weight) is a walk from `u` to `v` along edges of the relation `E`. -/
def chainW (E : Nat → Nat → Int → Prop) : Nat → List (Nat × Int) → Nat → Prop
  | u, [], v => u = v
  | u, s :: rest, v => E u s.1 s.2 ∧ chainW E s.1 rest v

/-- Total weight of a walk's step list. -/
def walkWeight (l : List (Nat × Int)) : Int :=
  (l.map Prod.snd).sum

/-- The edge relation of an input edge list. -/
def edgeRel (edges : List (Nat × Nat × Int)) (a b : Nat) (w : Int) : Prop :=
  (a, b, w) ∈ edges

/-- The edge relation of an adjacency list. -/
def adjRel (adj : List (List Edge)) (a b : Nat) (w : Int) : Prop :=
  ∃ row, adj[a]? = some row ∧ Edge.mk b w ∈ row

/-- The graph has a directed cycle of negative total weight. -/
def HasNegCycle (edges : List (Nat × Nat × Int)) : Prop :=
  ∃ v l, l ≠ [] ∧ chainW (edgeRel edges) v l v ∧ walkWeight l < 0

/-- There is a directed path (walk) from `u` to `v`. -/
def Reachable (edges : List (Nat × Nat × Int)) (u v : Nat) : Prop :=
  ∃ l, chainW (edgeRel edges) u l v

/-- `d` is the shortest-path distance from `u` to `v`: some walk realises it
and no walk is shorter. -/
def ShortestDist (edges : List (Nat × Nat × Int)) (u v : Nat) (d : Int) : Prop :=
  (∃ l, chainW (edgeRel edges) u l v ∧ walkWeight l = d) ∧
    ∀ l, chainW (edgeRel edges) u l v → d ≤ walkWeight l

/-- Every edge endpoint lies in `[0, n)`. -/
def ValidEdges (n : Nat) (edges : List (Nat × Nat × Int)) : Prop :=
  ∀ e ∈ edges, e.1 < n ∧ e.2.1 < n

/-- Entry `(u, v)` of a distance matrix. -/
def mEntry (m : List (List (Option Int))) (u v : Nat) : Option Int :=
  (m.getD u []).getD v none

/-- Value of a Bellman-Ford working vector at index `i` (default `0`). -/
def getI (l : List Int) (i : Nat) : Int :=
  l.getD i 0

/-- All entries of a working vector are `≤ 0`. -/
def NonPos (l : List Int) : Prop :=
  ∀ x ∈ l, x ≤ 0

/-- Every edge target of the adjacency list is again a valid index. -/
def AdjWF (adj : List (List Edge)) : Prop :=
  ∀ (u : Nat) (row : List Edge), adj[u]? = some row →
    ∀ e ∈ row, e.to' < adj.length

/-- The graph of an adjacency list has a negative directed cycle. -/
def NegCycleAdj (adj : List (List Edge)) : Prop :=
  ∃ v l, l ≠ [] ∧ chainW (adjRel adj) v l v ∧ walkWeight l < 0

/-- Bellman-Ford fixpoint: no edge of the first `n` rows can still relax. -/
def BFFix (adj : List (List Edge)) (n : Nat) (h : List Int) : Prop :=
  ∀ u, u < n → ∃ row : List Edge, adj[u]? = some row ∧
    ∀ e ∈ row, e.to' < h.length ∧ getI h e.to' ≤ getI h u + e.weight

/-- Every entry of the working vector is realised by some walk ending there. -/
def DW (adj : List (List Edge)) (dist : List Int) : Prop :=
  ∀ i, i < dist.length →
    ∃ a l, chainW (adjRel adj) a l i ∧ walkWeight l = getI dist i

/-- After `k` relaxation rounds: the working vector is below the weight of
every walk with at most `k` edges. -/
def BoundK (adj : List (List Edge)) (k : Nat) (dist : List Int) : Prop :=
  ∀ a l i, chainW (adjRel adj) a l i → l.length ≤ k →
    getI dist i ≤ walkWeight l

end APSP

namespace APSP

/-! ## Basic lemmas about walks and accessors -/

theorem walkWeight_nil : walkWeight [] = 0 := rfl

theorem walkWeight_cons (s : Nat × Int) (l : List (Nat × Int)) :
    walkWeight (s :: l) = s.2 + walkWeight l := by
  simp [walkWeight]

theorem walkWeight_append (l₁ l₂ : List (Nat × Int)) :
    walkWeight (l₁ ++ l₂) = walkWeight l₁ + walkWeight l₂ := by
  simp [walkWeight]

theorem chainW_append {E : Nat → Nat → Int → Prop} {a c : Nat}
    {l₁ l₂ : List (Nat × Int)} :
    chainW E a (l₁ ++ l₂) c ↔ ∃ b, chainW E a l₁ b ∧ chainW E b l₂ c := by
  induction l₁ generalizing a with
  | nil =>
    constructor
    · intro h; exact ⟨a, rfl, h⟩
    · rintro ⟨b, hb, h⟩; cases hb; exact h
  | cons s rest ih =>
    constructor
    · rintro ⟨he, h⟩
      obtain ⟨b, h₁, h₂⟩ := ih.mp h
      exact ⟨b, ⟨he, h₁⟩, h₂⟩
    · rintro ⟨b, ⟨he, h₁⟩, h₂⟩
      exact ⟨he, ih.mpr ⟨b, h₁, h₂⟩⟩

theorem chainW_snoc {E : Nat → Nat → Int → Prop} {a b c : Nat} {w : Int}
    {l : List (Nat × Int)} (h₁ : chainW E a l b) (h₂ : E b c w) :
    chainW E a (l ++ [(c, w)]) c :=
  chainW_append.mpr ⟨b, h₁, h₂, rfl⟩

theorem getI_eq {l : List Int} {i : Nat} {v : Int} (h : l[i]? = some v) :
    getI l i = v := by
  simp [getI, List.getD_eq_getElem?_getD, h]

theorem getI_set_self {l : List Int} {i : Nat} (v : Int) (h : i < l.length) :
    getI (l.set i v) i = v := by
  simp [getI, List.getD_eq_getElem?_getD, List.getElem?_set_self h]

theorem getI_set_other {l : List Int} {i j : Nat} (v : Int) (h : i ≠ j) :
    getI (l.set i v) j = getI l j := by
  simp [getI, List.getD_eq_getElem?_getD, List.getElem?_set_ne h]

theorem nonPos_getI {l : List Int} (h : NonPos l) (i : Nat) : getI l i ≤ 0 := by
  rcases hl : l[i]? with _ | v
  · simp [getI, List.getD_eq_getElem?_getD, hl]
  · simpa [getI_eq hl] using h v (List.getElem?_mem hl)

theorem nonPos_set {l : List Int} {v : Int} (h : NonPos l) (hv : v ≤ 0)
    (i : Nat) : NonPos (l.set i v) := by
  intro x hx
  rcases List.mem_or_eq_of_mem_set hx with hx' | rfl
  · exact h x hx'
  · exact hv

theorem ne_i32MAX_of_nonPos {l : List Int} {u : Nat} {v : Int}
    (h : NonPos l) (hv : l[u]? = some v) : v ≠ i32MAX := by
  have := h v (List.getElem?_mem hv)
  intro he
  rw [he] at this
  exact absurd this (by norm_num [i32MAX])

/-! ## Bellman-Ford: relaxation lemmas -/

/-- Master lemma for one row relaxation: lengths are preserved, entries stay
non-positive, entries only decrease, every edge of the row ends up relaxed
against the row's initial source value, and an unchanged flag means nothing
was written. -/
theorem relaxRow_spec {u : Nat} {row : List Edge} {dist : List Int} {ch : Bool}
    {d' : List Int} {ch' : Bool} (hnp : NonPos dist)
    (hrun : relaxRow u row dist ch = some (d', ch')) :
    d'.length = dist.length ∧ NonPos d' ∧
      (∀ i, getI d' i ≤ getI dist i) ∧
      (∀ e ∈ row, e.to' < dist.length ∧
        getI d' e.to' ≤ getI dist u + e.weight) ∧
      (ch' = false → ch = false ∧ d' = dist) := by
  induction row generalizing dist ch with
  | nil =>
    simp only [relaxRow, Option.some.injEq, Prod.mk.injEq] at hrun
    obtain ⟨h₁, h₂⟩ := hrun
    subst h₁; subst h₂
    exact ⟨rfl, hnp, fun i => le_refl _, by simp, fun h => ⟨h, rfl⟩⟩
  | cons e rest ih =>
    rw [relaxRow] at hrun
    split at hrun
    · exact absurd hrun (by simp)
    rename_i du hdu
    rw [if_neg (ne_i32MAX_of_nonPos hnp hdu)] at hrun
    split at hrun
    · exact absurd hrun (by simp)
    rename_i dv hdv
    have hto : e.to' < dist.length := (List.getElem?_eq_some.mp hdv).1
    have hdu' : getI dist u = du := getI_eq hdu
    have hdv' : getI dist e.to' = dv := getI_eq hdv
    by_cases hlt : du + e.weight < dv
    · rw [if_pos hlt] at hrun
      have hdv0 : dv ≤ 0 := hnp dv (List.getElem?_mem hdv)
      have hnp₂ : NonPos (dist.set e.to' (du + e.weight)) :=
        nonPos_set hnp (by omega) _
      obtain ⟨hl, hn, hmono, hedge, hch⟩ := ih hnp₂ hrun
      have hlen₂ : (dist.set e.to' (du + e.weight)).length = dist.length :=
        List.length_set ..
      have hset_le : ∀ i, getI (dist.set e.to' (du + e.weight)) i ≤ getI dist i := by
        intro i
        by_cases hie : e.to' = i
        · subst hie; rw [getI_set_self _ hto]; omega
        · rw [getI_set_other _ hie]
      refine ⟨by omega, hn, fun i => le_trans (hmono i) (hset_le i), ?_, ?_⟩
      · intro e' he'
        rcases List.mem_cons.mp he' with rfl | he'
        · refine ⟨hto, ?_⟩
          have := hmono e'.to'
          have hv₂ : getI (dist.set e'.to' (du + e'.weight)) e'.to' = du + e'.weight :=
            getI_set_self _ hto
          omega
        · obtain ⟨hb, hr⟩ := hedge e' he'
          refine ⟨by omega, ?_⟩
          have := hset_le u
          omega
      · intro hfalse
        obtain ⟨h₁, _⟩ := hch hfalse
        exact absurd h₁ (by simp)
    · rw [if_neg hlt] at hrun
      obtain ⟨hl, hn, hmono, hedge, hch⟩ := ih hnp hrun
      refine ⟨hl, hn, hmono, ?_, hch⟩
      intro e' he'
      rcases List.mem_cons.mp he' with rfl | he'
      · have := hmono e'.to'
        refine ⟨hto, by omega⟩
      · exact hedge e' he'

/-- Master lemma for one full relaxation round over a vertex list. -/
theorem relaxVerts_spec {adj : List (List Edge)} {us : List Nat}
    {dist : List Int} {ch : Bool} {d' : List Int} {ch' : Bool}
    (hnp : NonPos dist)
    (hrun : relaxVerts adj us dist ch = some (d', ch')) :
    d'.length = dist.length ∧ NonPos d' ∧
      (∀ i, getI d' i ≤ getI dist i) ∧
      (∀ u ∈ us, ∃ row : List Edge, adj[u]? = some row ∧
        ∀ e ∈ row, e.to' < dist.length ∧
          getI d' e.to' ≤ getI dist u + e.weight) ∧
      (ch' = false → ch = false ∧ d' = dist) := by
  induction us generalizing dist ch with
  | nil =>
    simp only [relaxVerts, Option.some.injEq, Prod.mk.injEq] at hrun
    obtain ⟨h₁, h₂⟩ := hrun
    subst h₁; subst h₂
    exact ⟨rfl, hnp, fun i => le_refl _, by simp, fun h => ⟨h, rfl⟩⟩
  | cons u us ih =>
    rw [relaxVerts] at hrun
    split at hrun
    · exact absurd hrun (by simp)
    rename_i row hrow
    split at hrun
    · exact absurd hrun (by simp)
    rename_i dc hdc
    obtain ⟨hl₁, hnp₁, hmono₁, hedge₁, hch₁⟩ := relaxRow_spec hnp hdc
    obtain ⟨hl₂, hnp₂, hmono₂, hedge₂, hch₂⟩ := ih hnp₁ hrun
    refine ⟨by omega, hnp₂, fun i => le_trans (hmono₂ i) (hmono₁ i), ?_, ?_⟩
    · intro u' hu'
      rcases List.mem_cons.mp hu' with rfl | hu'
      · refine ⟨row, hrow, fun e he => ?_⟩
        obtain ⟨hb, hr⟩ := hedge₁ e he
        have := hmono₂ e.to'
        exact ⟨hb, by omega⟩
      · obtain ⟨row', hrow', hbnd⟩ := hedge₂ u' hu'
        refine ⟨row', hrow', fun e he => ?_⟩
        obtain ⟨hb, hr⟩ := hbnd e he
        have := hmono₁ u'
        exact ⟨by omega, by omega⟩
    · intro hfalse
      obtain ⟨hc₂, hd₂⟩ := hch₂ hfalse
      obtain ⟨hc₁, hd₁⟩ := hch₁ hc₂
      exact ⟨hc₁, by rw [hd₂, hd₁]⟩

/-- Row relaxation preserves the walk realisability of every entry. -/
theorem relaxRow_DW {adj : List (List Edge)} {u : Nat} {row : List Edge}
    {dist : List Int} {ch : Bool} {d' : List Int} {ch' : Bool}
    (hdw : DW adj dist) (hrow : ∀ e ∈ row, adjRel adj u e.to' e.weight)
    (hrun : relaxRow u row dist ch = some (d', ch')) : DW adj d' := by
  induction row generalizing dist ch with
  | nil =>
    simp only [relaxRow, Option.some.injEq, Prod.mk.injEq] at hrun
    obtain ⟨h₁, _⟩ := hrun
    subst h₁; exact hdw
  | cons e rest ih =>
    rw [relaxRow] at hrun
    split at hrun
    · exact absurd hrun (by simp)
    rename_i du hdu
    split at hrun
    · exact ih hdw (fun e' he' => hrow e' (List.mem_cons_of_mem _ he')) hrun
    split at hrun
    · exact absurd hrun (by simp)
    rename_i dv hdv
    split at hrun
    · rename_i hlt
      have hu : u < dist.length := (List.getElem?_eq_some.mp hdu).1
      have hto : e.to' < dist.length := (List.getElem?_eq_some.mp hdv).1
      refine ih ?_ (fun e' he' => hrow e' (List.mem_cons_of_mem _ he')) hrun
      intro i hi
      rw [List.length_set] at hi
      by_cases hie : e.to' = i
      · subst hie
        obtain ⟨a, l, hch, hw⟩ := hdw u hu
        refine ⟨a, l ++ [(e.to', e.weight)],
          chainW_snoc hch (hrow e (List.mem_cons_self ..)), ?_⟩
        rw [walkWeight_append, getI_set_self _ hto, hw, getI_eq hdu]
        simp [walkWeight]
      · obtain ⟨a, l, hch, hw⟩ := hdw i hi
        exact ⟨a, l, hch, by rw [getI_set_other _ hie]; exact hw⟩
    · exact ih hdw (fun e' he' => hrow e' (List.mem_cons_of_mem _ he')) hrun

/-- A full round preserves walk realisability. -/
theorem relaxVerts_DW {adj : List (List Edge)} {us : List Nat}
    {dist : List Int} {ch : Bool} {d' : List Int} {ch' : Bool}
    (hdw : DW adj dist)
    (hrun : relaxVerts adj us dist ch = some (d', ch')) : DW adj d' := by
  induction us generalizing dist ch with
  | nil =>
    simp only [relaxVerts, Option.some.injEq, Prod.mk.injEq] at hrun
    obtain ⟨h₁, _⟩ := hrun
    subst h₁; exact hdw
  | cons u us ih =>
    rw [relaxVerts] at hrun
    split at hrun
    · exact absurd hrun (by simp)
    rename_i row hrow
    split at hrun
    · exact absurd hrun (by simp)
    rename_i dc hdc
    have hdw₁ : DW adj dc.1 := by
      refine relaxRow_DW hdw (fun e he => ⟨row, hrow, ?_⟩) hdc
      exact he
    exact ih hdw₁ hrun

/-! ## Bellman-Ford: the negative-cycle check -/

theorem checkRow_false_spec {u : Nat} {row : List Edge} {dist : List Int}
    (hnp : NonPos dist) (hrun : checkRow u row dist = some false) :
    ∀ e ∈ row, e.to' < dist.length ∧
      getI dist e.to' ≤ getI dist u + e.weight := by
  induction row with
  | nil => simp
  | cons e rest ih =>
    rw [checkRow] at hrun
    split at hrun
    · exact absurd hrun (by simp)
    rename_i du hdu
    rw [if_neg (ne_i32MAX_of_nonPos hnp hdu)] at hrun
    split at hrun
    · exact absurd hrun (by simp)
    rename_i dv hdv
    split at hrun
    · exact absurd hrun (by simp)
    rename_i hge
    intro e' he'
    rcases List.mem_cons.mp he' with rfl | he'
    · rw [getI_eq hdu, getI_eq hdv]
      exact ⟨(List.getElem?_eq_some.mp hdv).1, by omega⟩
    · exact ih hrun e' he'

theorem checkRow_true_spec {u : Nat} {row : List Edge} {dist : List Int}
    (hnp : NonPos dist) (hrun : checkRow u row dist = some true) :
    ∃ e ∈ row, e.to' < dist.length ∧ u < dist.length ∧
      getI dist u + e.weight < getI dist e.to' := by
  induction row with
  | nil => simp [checkRow] at hrun
  | cons e rest ih =>
    rw [checkRow] at hrun
    split at hrun
    · exact absurd hrun (by simp)
    rename_i du hdu
    rw [if_neg (ne_i32MAX_of_nonPos hnp hdu)] at hrun
    split at hrun
    · exact absurd hrun (by simp)
    rename_i dv hdv
    split at hrun
    · rename_i hlt
      refine ⟨e, List.mem_cons_self .., (List.getElem?_eq_some.mp hdv).1,
        (List.getElem?_eq_some.mp hdu).1, ?_⟩
      rw [getI_eq hdu, getI_eq hdv]; exact hlt
    · obtain ⟨e', he', h₁, h₂, h₃⟩ := ih hrun
      exact ⟨e', List.mem_cons_of_mem _ he', h₁, h₂, h₃⟩

theorem checkVerts_some_spec {adj : List (List Edge)} {us : List Nat}
    {dist h : List Int} (hrun : checkVerts adj us dist = some (some h)) :
    h = dist ∧ ∀ u ∈ us, ∃ row : List Edge, adj[u]? = some row ∧
      checkRow u row dist = some false := by
  induction us with
  | nil =>
    simp only [checkVerts, Option.some.injEq] at hrun
    exact ⟨hrun.symm, by simp⟩
  | cons u us ih =>
    rw [checkVerts] at hrun
    split at hrun
    · exact absurd hrun (by simp)
    rename_i row hrow
    split at hrun
    · exact absurd hrun (by simp)
    · exact absurd hrun (by simp)
    · rename_i hcr
      obtain ⟨h₁, h₂⟩ := ih hrun
      refine ⟨h₁, fun u' hu' => ?_⟩
      rcases List.mem_cons.mp hu' with rfl | hu'
      · exact ⟨row, hrow, hcr⟩
      · exact h₂ u' hu'

theorem checkVerts_none_spec {adj : List (List Edge)} {us : List Nat}
    {dist : List Int} (hrun : checkVerts adj us dist = some none) :
    ∃ u ∈ us, ∃ row : List Edge, adj[u]? = some row ∧
      checkRow u row dist = some true := by
  induction us with
  | nil => simp [checkVerts] at hrun
  | cons u us ih =>
    rw [checkVerts] at hrun
    split at hrun
    · exact absurd hrun (by simp)
    rename_i row hrow
    split at hrun
    · exact absurd hrun (by simp)
    · rename_i hcr
      exact ⟨u, List.mem_cons_self .., row, hrow, hcr⟩
    · rename_i hcr
      obtain ⟨u', hu', row', hrow', h'⟩ := ih hrun
      exact ⟨u', List.mem_cons_of_mem _ hu', row', hrow', h'⟩

/-! ## Bellman-Ford: the outer loop -/

/-- Any successful Bellman-Ford run yields a non-positive vector of the same
length that is a relaxation fixpoint on the first `n` rows — whether it
returned through the early exit or through the final check. -/
theorem bfLoop_some_spec {adj : List (List Edge)} {n r : Nat}
    {dist h : List Int} (hnp : NonPos dist)
    (hrun : bfLoop adj n r dist = some (some h)) :
    h.length = dist.length ∧ NonPos h ∧ BFFix adj n h := by
  induction r generalizing dist with
  | zero =>
    rw [bfLoop] at hrun
    obtain ⟨rfl, hall⟩ := checkVerts_some_spec hrun
    refine ⟨rfl, hnp, fun u hu => ?_⟩
    obtain ⟨row, hrow, hcr⟩ := hall u (List.mem_range.mpr hu)
    exact ⟨row, hrow, checkRow_false_spec hnp hcr⟩
  | succ r ih =>
    rw [bfLoop] at hrun
    split at hrun
    · exact absurd hrun (by simp)
    rename_i dc hdc
    obtain ⟨hl, hnp', hmono, hedge, hch⟩ := relaxVerts_spec hnp hdc
    split at hrun
    · rename_i hfalse
      simp only [Option.some.injEq] at hrun
      obtain ⟨-, hd⟩ := hch hfalse
      subst hrun
      refine ⟨hl, hnp', fun u hu => ?_⟩
      obtain ⟨row, hrow, hbnd⟩ := hedge u (List.mem_range.mpr hu)
      refine ⟨row, hrow, fun e he => ?_⟩
      obtain ⟨hb, hr⟩ := hbnd e he
      rw [hd] at hr
      rw [hd]
      exact ⟨by omega, hr⟩
    · obtain ⟨hl', hnp'', hfix⟩ := ih hnp' hrun
      exact ⟨by omega, hnp'', hfix⟩

/-- `bellman_ford` success: the potential vector has length `num_nodes`,
all entries `≤ 0`, and no edge of the graph can still relax against it. -/
theorem bellman_ford_success {adj : List (List Edge)} {n : Nat} {h : List Int}
    (hrun : bellman_ford adj n = some (some h)) :
    h.length = n ∧ NonPos h ∧ BFFix adj n h := by
  have hnp : NonPos (List.replicate n (0 : Int)) := by
    intro x hx
    rw [List.eq_of_mem_replicate hx]
  obtain ⟨h₁, h₂, h₃⟩ := bfLoop_some_spec hnp hrun
  exact ⟨by simpa using h₁, h₂, h₃⟩

/-! ## Reweighting lemmas -/

theorem reweightRow_mem {h : List Int} {u : Nat} {row r : List Edge}
    (hrun : reweightRow h u row = some r) :
    ∀ e' ∈ r, ∃ e ∈ row, ∃ hu hv, h[u]? = some hu ∧ h[e.to']? = some hv ∧
      e' = Edge.mk e.to' (e.weight + hu - hv) := by
  induction row generalizing r with
  | nil =>
    simp only [reweightRow, Option.some.injEq] at hrun
    subst hrun; simp
  | cons e rest ih =>
    rw [reweightRow] at hrun
    split at hrun
    · rename_i hu hv heq₁ heq₂
      split at hrun
      · rename_i r₀ hr₀
        simp only [Option.some.injEq] at hrun
        subst hrun
        intro e' he'
        rcases List.mem_cons.mp he' with rfl | he'
        · exact ⟨e, List.mem_cons_self .., _, _, heq₁, heq₂, rfl⟩
        · obtain ⟨e₀, he₀, hu₀, hv₀, h₁, h₂, h₃⟩ := ih hr₀ e' he'
          exact ⟨e₀, List.mem_cons_of_mem _ he₀, hu₀, hv₀, h₁, h₂, h₃⟩
      · exact absurd hrun (by simp)
    · exact absurd hrun (by simp)

theorem reweightAll_mem {adj : List (List Edge)} {h : List Int}
    {us : List Nat} {radj : List (List Edge)}
    (hrun : reweightAll adj h us = some radj) :
    ∀ row' ∈ radj, ∃ u ∈ us, ∃ row : List Edge, adj[u]? = some row ∧
      reweightRow h u row = some row' := by
  induction us generalizing radj with
  | nil =>
    simp only [reweightAll, Option.some.injEq] at hrun
    subst hrun; simp
  | cons u us ih =>
    rw [reweightAll] at hrun
    split at hrun
    · exact absurd hrun (by simp)
    rename_i row hrow
    split at hrun
    · rename_i r rs hr hrs
      simp only [Option.some.injEq] at hrun
      subst hrun
      intro row' hrow'
      rcases List.mem_cons.mp hrow' with rfl | hrow'
      · exact ⟨u, List.mem_cons_self .., row, hrow, hr⟩
      · obtain ⟨u', hu', row₀, h₁, h₂⟩ := ih hrs row' hrow'
        exact ⟨u', List.mem_cons_of_mem _ hu', row₀, h₁, h₂⟩
    · exact absurd hrun (by simp)

/-! ## Walk combinatorics: congruence, pigeonhole, cycle removal -/

theorem chainW_congr {E₁ E₂ : Nat → Nat → Int → Prop}
    (h : ∀ a b w, E₁ a b w ↔ E₂ a b w) :
    ∀ {a : Nat} {l : List (Nat × Int)} {i : Nat},
      chainW E₁ a l i ↔ chainW E₂ a l i := by
  intro a l i
  induction l generalizing a with
  | nil => exact Iff.rfl
  | cons s rest ih => exact and_congr (h ..) ih

theorem adjRel_lt {adj : List (List Edge)} {a b : Nat} {w : Int}
    (h : adjRel adj a b w) : a < adj.length := by
  obtain ⟨row, hrow, -⟩ := h
  exact (List.getElem?_eq_some.mp hrow).1

theorem chainW_targets {E : Nat → Nat → Int → Prop} {a i : Nat}
    {l : List (Nat × Int)} (h : chainW E a l i) :
    ∀ s ∈ l, ∃ u, E u s.1 s.2 := by
  induction l generalizing a with
  | nil => simp
  | cons s rest ih =>
    obtain ⟨he, hc⟩ := h
    intro s' hs'
    rcases List.mem_cons.mp hs' with rfl | hs'
    · exact ⟨a, he⟩
    · exact ih hc s' hs'

theorem bounded_not_nodup {L : List Nat} {n : Nat}
    (hb : ∀ x ∈ L, x < n) (hl : n < L.length) : ¬ L.Nodup := by
  intro hnd
  have hsub : L.toFinset ⊆ Finset.range n := by
    intro x hx
    exact Finset.mem_range.mpr (hb x (List.mem_toFinset.mp hx))
  have h₁ := Finset.card_le_card hsub
  rw [List.toFinset_card_of_nodup hnd, Finset.card_range] at h₁
  omega

theorem mem_map_split {x : Nat} {l : List (Nat × Int)}
    (h : x ∈ l.map Prod.fst) :
    ∃ l₁ s l₂, l = l₁ ++ (s :: l₂) ∧ (s : Nat × Int).1 = x := by
  obtain ⟨s, hs, hfs⟩ := List.mem_map.mp h
  obtain ⟨l₁, l₂, hl⟩ := List.append_of_mem hs
  exact ⟨l₁, s, l₂, hl, hfs⟩

theorem pair_sublist_map_split {x : Nat} {l : List (Nat × Int)}
    (h : List.Sublist [x, x] (l.map Prod.fst)) :
    ∃ l₁ s₁ l₂ s₂ l₃, l = l₁ ++ (s₁ :: (l₂ ++ (s₂ :: l₃))) ∧
      (s₁ : Nat × Int).1 = x ∧ (s₂ : Nat × Int).1 = x := by
  induction l with
  | nil => simp at h
  | cons s rest ih =>
    rw [List.map_cons] at h
    rcases List.sublist_cons_iff.mp h with h' | ⟨r, hr, hrsub⟩
    · obtain ⟨l₁, s₁, l₂, s₂, l₃, hl, h₁, h₂⟩ := ih h'
      exact ⟨s :: l₁, s₁, l₂, s₂, l₃, by rw [hl]; rfl, h₁, h₂⟩
    · have hx : x = s.1 ∧ r = [x] := by
        constructor
        · injection hr
        · have := hr
          injection this with h₁ h₂
          exact h₂.symm
      obtain ⟨hxs, hrx⟩ := hx
      subst hrx
      have hmem : x ∈ rest.map Prod.fst := List.singleton_sublist.mp hrsub
      obtain ⟨l₂, s₂, l₃, hl, hs₂⟩ := mem_map_split hmem
      refine ⟨[], s, l₂, s₂, l₃, by rw [hl]; rfl, hxs.symm, hs₂⟩

/-- Cycle removal: if the graph has no negative cycle, every walk can be
shortened to one with at most `adj.length` edges without increasing its
weight (repeatedly removing non-negative cycles). -/
theorem walk_reduce {adj : List (List Edge)} (hwf : AdjWF adj)
    (hnc : ¬ NegCycleAdj adj) :
    ∀ (len a : Nat) (l : List (Nat × Int)) (i : Nat), l.length = len →
      chainW (adjRel adj) a l i →
      ∃ l', chainW (adjRel adj) a l' i ∧ walkWeight l' ≤ walkWeight l ∧
        l'.length ≤ adj.length := by
  intro len
  induction len using Nat.strong_induction_on with
  | _ len ih =>
    intro a l i hlen hch
    by_cases hsmall : l.length ≤ adj.length
    · exact ⟨l, hch, le_refl _, hsmall⟩
    push_neg at hsmall
    have ha : a < adj.length := by
      cases l with
      | nil => simp at hsmall
      | cons s rest => exact adjRel_lt hch.1
    have htargets : ∀ x ∈ l.map Prod.fst, x < adj.length := by
      intro x hx
      obtain ⟨s, hs, rfl⟩ := List.mem_map.mp hx
      obtain ⟨u, row, hrow, hmem⟩ := chainW_targets hch s hs
      exact hwf u row hrow _ hmem
    have hnodup : ¬ (a :: l.map Prod.fst).Nodup := by
      apply bounded_not_nodup (n := adj.length)
      · intro x hx
        rcases List.mem_cons.mp hx with rfl | hx
        · exact ha
        · exact htargets x hx
      · simp only [List.length_cons, List.length_map]
        omega
    obtain ⟨x, hdup⟩ : ∃ x, List.Sublist [x, x] (a :: l.map Prod.fst) := by
      by_contra hno
      push_neg at hno
      exact hnodup (List.nodup_iff_sublist.mpr hno)
    rcases List.sublist_cons_iff.mp hdup with hdup' | ⟨r, hr, hrsub⟩
    · -- both occurrences of the repeated vertex are walk targets
      obtain ⟨l₁, s₁, l₂, s₂, l₃, rfl, hs₁, hs₂⟩ := pair_sublist_map_split hdup'
      obtain ⟨b₁, hc₁, he₁, hc₃⟩ := chainW_append.mp hch
      obtain ⟨b₂, hc₄, he₂, hc₆⟩ := chainW_append.mp hc₃
      rw [hs₁] at hc₄
      rw [hs₂] at he₂ hc₆
      rw [← hs₁] at hc₆
      have hcyc : chainW (adjRel adj) x (l₂ ++ [(x, s₂.2)]) x :=
        chainW_snoc hc₄ he₂
      have hcw : 0 ≤ walkWeight (l₂ ++ [(x, s₂.2)]) := by
        by_contra hneg
        exact hnc ⟨x, l₂ ++ [(x, s₂.2)], by simp, hcyc, by omega⟩
      have hch' : chainW (adjRel adj) a (l₁ ++ (s₁ :: l₃)) i :=
        chainW_append.mpr ⟨b₁, hc₁, he₁, hc₆⟩
      have hwt : walkWeight (l₁ ++ (s₁ :: l₃)) ≤
          walkWeight (l₁ ++ (s₁ :: (l₂ ++ (s₂ :: l₃)))) := by
        simp only [walkWeight_append, walkWeight_cons, walkWeight_nil] at *
        omega
      obtain ⟨l', hch'', hw', hl'⟩ :=
        ih (l₁ ++ (s₁ :: l₃)).length
          (by simp only [List.length_append, List.length_cons] at hlen ⊢; omega)
          a _ i rfl hch'
      exact ⟨l', hch'', le_trans hw' hwt, hl'⟩
    · -- the start vertex repeats as a walk target
      have hxa : x = a := by injection hr
      have hrx : r = [x] := by
        injection hr with h₁ h₂
        exact h₂.symm
      subst hrx
      subst hxa
      have hmem : x ∈ l.map Prod.fst := List.singleton_sublist.mp hrsub
      obtain ⟨l₁, s, l₂, rfl, hs⟩ := mem_map_split hmem
      obtain ⟨b, hc₁, he, hc₃⟩ := chainW_append.mp hch
      rw [hs] at he hc₃
      have hcyc : chainW (adjRel adj) x (l₁ ++ [(x, s.2)]) x :=
        chainW_snoc hc₁ he
      have hcw : 0 ≤ walkWeight (l₁ ++ [(x, s.2)]) := by
        by_contra hneg
        exact hnc ⟨x, l₁ ++ [(x, s.2)], by simp, hcyc, by omega⟩
      have hwt : walkWeight l₂ ≤ walkWeight (l₁ ++ (s :: l₂)) := by
        simp only [walkWeight_append, walkWeight_cons, walkWeight_nil] at *
        omega
      obtain ⟨l', hch'', hw', hl'⟩ :=
        ih l₂.length
          (by simp only [List.length_append, List.length_cons] at hlen ⊢; omega)
          x _ i rfl hc₃
      exact ⟨l', hch'', le_trans hw' hwt, hl'⟩

/-! ## Building the adjacency list -/

theorem buildAdj_length : ∀ {edges : List (Nat × Nat × Int)}
    {acc adj : List (List Edge)}, buildAdj edges acc = some adj →
    adj.length = acc.length := by
  intro edges
  induction edges with
  | nil =>
    intro acc adj hrun
    simp only [buildAdj, Option.some.injEq] at hrun
    rw [hrun]
  | cons e rest ih =>
    intro acc adj hrun
    obtain ⟨u, v, w⟩ := e
    rw [buildAdj] at hrun
    split at hrun
    · exact absurd hrun (by simp)
    rename_i row hrow
    rw [ih hrun, List.length_set]

theorem adjRel_set_push {acc : List (List Edge)} {u : Nat} {row : List Edge}
    (hrow : acc[u]? = some row) (v : Nat) (w₀ : Int) :
    ∀ a b w, adjRel (acc.set u (row ++ [⟨v, w₀⟩])) a b w ↔
      (adjRel acc a b w ∨ (a = u ∧ b = v ∧ w = w₀)) := by
  intro a b w
  have hu : u < acc.length := (List.getElem?_eq_some.mp hrow).1
  by_cases hau : a = u
  · subst hau
    constructor
    · rintro ⟨row', hrow', hmem⟩
      rw [List.getElem?_set_self hu] at hrow'
      obtain rfl : row ++ [⟨v, w₀⟩] = row' := by injection hrow'
      rcases List.mem_append.mp hmem with hmem' | hmem'
      · exact Or.inl ⟨row, hrow, hmem'⟩
      · simp only [List.mem_singleton, Edge.mk.injEq] at hmem'
        exact Or.inr ⟨rfl, hmem'.1, hmem'.2⟩
    · rintro (⟨row', hrow', hmem⟩ | ⟨ha', hb', hw'⟩)
      · rw [hrow] at hrow'
        obtain rfl : row = row' := by injection hrow'
        exact ⟨row ++ [⟨v, w₀⟩], List.getElem?_set_self hu,
          List.mem_append_left _ hmem⟩
      · refine ⟨row ++ [⟨v, w₀⟩], ?_, ?_⟩
        · rw [ha']
          exact List.getElem?_set_self hu
        · rw [hb', hw']
          exact List.mem_append_right _ (List.mem_singleton.mpr rfl)
  · constructor
    · rintro ⟨row', hrow', hmem⟩
      rw [List.getElem?_set_ne (fun h => hau h.symm)] at hrow'
      exact Or.inl ⟨row', hrow', hmem⟩
    · rintro (⟨row', hrow', hmem⟩ | ⟨rfl, -, -⟩)
      · refine ⟨row', ?_, hmem⟩
        rw [List.getElem?_set_ne (fun h => hau h.symm)]
        exact hrow'
      · exact absurd rfl hau

theorem buildAdj_rel : ∀ {edges : List (Nat × Nat × Int)}
    {acc adj : List (List Edge)}, buildAdj edges acc = some adj →
    ∀ a b w, adjRel adj a b w ↔ (adjRel acc a b w ∨ (a, b, w) ∈ edges) := by
  intro edges
  induction edges with
  | nil =>
    intro acc adj hrun a b w
    simp only [buildAdj, Option.some.injEq] at hrun
    subst hrun
    simp
  | cons e rest ih =>
    intro acc adj hrun a b w
    obtain ⟨u, v, w₀⟩ := e
    rw [buildAdj] at hrun
    split at hrun
    · exact absurd hrun (by simp)
    rename_i row hrow
    rw [ih hrun a b w, adjRel_set_push hrow v w₀ a b w]
    simp only [List.mem_cons, Prod.mk.injEq]
    tauto

theorem buildAdj_some : ∀ (edges : List (Nat × Nat × Int))
    (acc : List (List Edge)), (∀ e ∈ edges, e.1 < acc.length) →
    ∃ adj, buildAdj edges acc = some adj := by
  intro edges
  induction edges with
  | nil => exact fun _ _ => ⟨_, rfl⟩
  | cons e rest ih =>
    intro acc hb
    obtain ⟨u, v, w⟩ := e
    have hu : u < acc.length := hb (u, v, w) (List.mem_cons_self ..)
    rw [buildAdj, List.getElem?_eq_getElem hu]
    refine ih _ ?_
    intro e' he'
    rw [List.length_set]
    exact hb e' (List.mem_cons_of_mem _ he')

theorem adjRel_replicate_empty {n a b : Nat} {w : Int} :
    ¬ adjRel (List.replicate n ([] : List Edge)) a b w := by
  rintro ⟨row, hrow, hmem⟩
  rw [List.getElem?_replicate] at hrow
  split at hrow
  · obtain rfl : ([] : List Edge) = row := by injection hrow
    exact absurd hmem (List.not_mem_nil _)
  · exact absurd hrow (by simp)

/-- The adjacency list built from an edge list represents exactly the input
edge relation. -/
theorem builtAdj_rel {n : Nat} {edges : List (Nat × Nat × Int)}
    {adj : List (List Edge)}
    (hb : buildAdj edges (List.replicate n []) = some adj) :
    ∀ a b w, adjRel adj a b w ↔ edgeRel edges a b w := by
  intro a b w
  rw [buildAdj_rel hb a b w]
  simp only [edgeRel]
  exact or_iff_right adjRel_replicate_empty

theorem builtAdj_length {n : Nat} {edges : List (Nat × Nat × Int)}
    {adj : List (List Edge)}
    (hb : buildAdj edges (List.replicate n []) = some adj) :
    adj.length = n := by
  rw [buildAdj_length hb, List.length_replicate]

theorem builtAdj_wf {n : Nat} {edges : List (Nat × Nat × Int)}
    {adj : List (List Edge)} (hval : ValidEdges n edges)
    (hb : buildAdj edges (List.replicate n []) = some adj) : AdjWF adj := by
  intro u row hrow e he
  have hrel : adjRel adj u e.to' e.weight := ⟨row, hrow, he⟩
  have := (builtAdj_rel hb u e.to' e.weight).mp hrel
  rw [builtAdj_length hb]
  exact (hval _ this).2

theorem builtAdj_negcycle_iff {n : Nat} {edges : List (Nat × Nat × Int)}
    {adj : List (List Edge)}
    (hb : buildAdj edges (List.replicate n []) = some adj) :
    NegCycleAdj adj ↔ HasNegCycle edges := by
  constructor
  · rintro ⟨v, l, h₁, h₂, h₃⟩
    exact ⟨v, l, h₁, (chainW_congr (builtAdj_rel hb)).mp h₂, h₃⟩
  · rintro ⟨v, l, h₁, h₂, h₃⟩
    exact ⟨v, l, h₁, (chainW_congr (builtAdj_rel hb)).mpr h₂, h₃⟩

/-! ## Bellman-Ford never panics on a well-formed graph -/

theorem relaxRow_total (u : Nat) : ∀ (row : List Edge) (dist : List Int)
    (ch : Bool), u < dist.length → (∀ e ∈ row, e.to' < dist.length) →
    ∃ dc, relaxRow u row dist ch = some dc ∧ dc.1.length = dist.length := by
  intro row
  induction row with
  | nil => exact fun _ _ _ _ => ⟨_, rfl, rfl⟩
  | cons e rest ih =>
    intro dist ch hu hto
    rw [relaxRow, List.getElem?_eq_getElem hu]
    by_cases hmax : dist[u] = i32MAX
    · simp only [hmax, if_pos]
      exact ih _ _ hu (fun e' he' => hto e' (List.mem_cons_of_mem _ he'))
    simp only [if_neg hmax]
    have hte : e.to' < dist.length := hto e (List.mem_cons_self ..)
    rw [List.getElem?_eq_getElem hte]
    by_cases hlt : dist[u] + e.weight < dist[e.to']
    · simp only [if_pos hlt]
      have h1 : u < (dist.set e.to' (dist[u] + e.weight)).length := by
        rw [List.length_set]; exact hu
      have h2 : ∀ e' ∈ rest,
          e'.to' < (dist.set e.to' (dist[u] + e.weight)).length := by
        intro e' he'
        rw [List.length_set]
        exact hto e' (List.mem_cons_of_mem _ he')
      obtain ⟨dc, hdc, hl⟩ := ih _ _ h1 h2
      exact ⟨dc, hdc, by rw [hl, List.length_set]⟩
    · simp only [if_neg hlt]
      exact ih _ _ hu (fun e' he' => hto e' (List.mem_cons_of_mem _ he'))

theorem relaxVerts_total {adj : List (List Edge)} (hwf : AdjWF adj) :
    ∀ (us : List Nat) (dist : List Int) (ch : Bool),
    dist.length = adj.length → (∀ u ∈ us, u < adj.length) →
    ∃ dc, relaxVerts adj us dist ch = some dc ∧ dc.1.length = dist.length := by
  intro us
  induction us with
  | nil => exact fun _ _ _ _ => ⟨_, rfl, rfl⟩
  | cons u us ih =>
    intro dist ch hlen hus
    have hu : u < adj.length := hus u (List.mem_cons_self ..)
    simp only [relaxVerts, List.getElem?_eq_getElem hu]
    obtain ⟨dc, hdc, hl⟩ := relaxRow_total u adj[u] dist ch (by omega)
      (fun e he => by
        have := hwf u adj[u] (List.getElem?_eq_getElem hu) e he
        omega)
    simp only [hdc]
    obtain ⟨dc', hdc', hl'⟩ := ih dc.1 dc.2 (by omega)
      (fun u' hu' => hus u' (List.mem_cons_of_mem _ hu'))
    exact ⟨dc', hdc', by omega⟩

theorem checkRow_total (u : Nat) : ∀ (row : List Edge) (dist : List Int),
    u < dist.length → (∀ e ∈ row, e.to' < dist.length) →
    ∃ b, checkRow u row dist = some b := by
  intro row
  induction row with
  | nil => exact fun _ _ _ => ⟨false, rfl⟩
  | cons e rest ih =>
    intro dist hu hto
    rw [checkRow, List.getElem?_eq_getElem hu]
    by_cases hmax : dist[u] = i32MAX
    · simp only [hmax, if_pos]
      exact ih _ hu (fun e' he' => hto e' (List.mem_cons_of_mem _ he'))
    simp only [if_neg hmax]
    have hte : e.to' < dist.length := hto e (List.mem_cons_self ..)
    rw [List.getElem?_eq_getElem hte]
    by_cases hlt : dist[u] + e.weight < dist[e.to']
    · exact ⟨true, by simp [hlt]⟩
    · simp only [if_neg hlt]
      exact ih _ hu (fun e' he' => hto e' (List.mem_cons_of_mem _ he'))

theorem checkVerts_total {adj : List (List Edge)} (hwf : AdjWF adj) :
    ∀ {us : List Nat} {dist : List Int},
    dist.length = adj.length → (∀ u ∈ us, u < adj.length) →
    ∃ res, checkVerts adj us dist = some res := by
  intro us
  induction us with
  | nil => exact fun _ _ => ⟨_, rfl⟩
  | cons u us ih =>
    intro dist hlen hus
    have hu : u < adj.length := hus u (List.mem_cons_self ..)
    simp only [checkVerts, List.getElem?_eq_getElem hu]
    obtain ⟨b, hb⟩ := checkRow_total u adj[u] dist (by omega)
      (fun e he => by
        have := hwf u adj[u] (List.getElem?_eq_getElem hu) e he
        omega)
    simp only [hb]
    cases b
    · exact ih hlen (fun u' hu' => hus u' (List.mem_cons_of_mem _ hu'))
    · exact ⟨_, rfl⟩

theorem bfLoop_total {adj : List (List Edge)} {n : Nat}
    (hlen : adj.length = n) (hwf : AdjWF adj) :
    ∀ {r : Nat} {dist : List Int}, dist.length = n →
    ∃ res, bfLoop adj n r dist = some res := by
  intro r
  induction r with
  | zero =>
    intro dist hd
    rw [bfLoop]
    exact checkVerts_total hwf (by omega)
      (fun u hu => by rw [hlen]; exact List.mem_range.mp hu)
  | succ r ih =>
    intro dist hd
    rw [bfLoop]
    obtain ⟨dc, hdc, hl⟩ := relaxVerts_total hwf (List.range n) dist false
      (by omega)
      (fun u hu => by rw [hlen]; exact List.mem_range.mp hu)
    simp only [hdc]
    by_cases hc : dc.2 = false
    · exact ⟨_, by rw [if_pos hc]⟩
    · rw [if_neg hc]
      exact ih (by omega)

theorem bellman_ford_total {adj : List (List Edge)} {n : Nat}
    (hlen : adj.length = n) (hwf : AdjWF adj) :
    ∃ res, bellman_ford adj n = some res :=
  bfLoop_total hlen hwf (by simp)

/-! ## Fixpoint consequences -/

/-- Telescoping a fixpoint along a walk. -/
theorem BFFix_telescope {adj : List (List Edge)} {n : Nat} {h : List Int}
    (hlen : adj.length = n) (hfix : BFFix adj n h) :
    ∀ (l : List (Nat × Int)) (a b : Nat), chainW (adjRel adj) a l b →
      getI h b ≤ getI h a + walkWeight l := by
  intro l
  induction l with
  | nil =>
    intro a b hch
    cases hch
    simp [walkWeight_nil]
  | cons s rest ih =>
    intro a b hch
    obtain ⟨he, hc⟩ := hch
    have ha : a < n := hlen ▸ adjRel_lt he
    obtain ⟨row, hrow, hbnd⟩ := hfix a ha
    obtain ⟨row', hrow', hmem⟩ := he
    rw [hrow] at hrow'
    obtain rfl : row = row' := by injection hrow'
    obtain ⟨-, hr⟩ := hbnd ⟨s.1, s.2⟩ hmem
    have hrec := ih s.1 b hc
    rw [walkWeight_cons]
    simp only at hr
    omega

/-- A graph admitting a Bellman-Ford fixpoint has no negative cycle. -/
theorem BFFix_no_negcycle {adj : List (List Edge)} {n : Nat} {h : List Int}
    (hlen : adj.length = n) (hfix : BFFix adj n h) : ¬ NegCycleAdj adj := by
  rintro ⟨v, l, -, hch, hneg⟩
  have := BFFix_telescope hlen hfix l v v hch
  omega

/-! ## Completeness of negative-cycle detection -/

theorem getI_replicate {n i : Nat} : getI (List.replicate n (0 : Int)) i = 0 := by
  rw [getI, List.getD_eq_getElem?_getD, List.getElem?_replicate]
  split <;> rfl

/-- One relaxation round over all vertices upgrades the walk bound from
`k`-edge walks to `(k+1)`-edge walks. -/
theorem roundBound {adj : List (List Edge)} {n k : Nat} {dist d' : List Int}
    {ch ch' : Bool} (hlen : adj.length = n) (hnp : NonPos dist)
    (hbk : BoundK adj k dist)
    (hrun : relaxVerts adj (List.range n) dist ch = some (d', ch')) :
    BoundK adj (k + 1) d' := by
  obtain ⟨-, -, hmono, hedge, -⟩ := relaxVerts_spec hnp hrun
  intro a l i hch hll
  by_cases hsm : l.length ≤ k
  · exact le_trans (hmono i) (hbk a l i hch hsm)
  rcases List.eq_nil_or_concat l with rfl | ⟨L, s, rfl⟩
  · simp at hsm
  rw [List.concat_eq_append] at hch hll hsm ⊢
  obtain ⟨b, hcL, hcs⟩ := chainW_append.mp hch
  obtain ⟨he, hsi⟩ := hcs
  have hb : b < n := hlen ▸ adjRel_lt he
  obtain ⟨row, hrow, hbnd⟩ := hedge b (List.mem_range.mpr hb)
  obtain ⟨row', hrow', hmem⟩ := he
  rw [hrow] at hrow'
  obtain rfl : row = row' := by injection hrow'
  obtain ⟨-, hr⟩ := hbnd ⟨s.1, s.2⟩ hmem
  have hL : getI dist b ≤ walkWeight L := by
    apply hbk a L b hcL
    simp only [List.length_append, List.length_cons, List.length_nil] at hll
    omega
  rw [walkWeight_append, walkWeight_cons, walkWeight_nil]
  simp only at hr
  rw [← hsi]
  omega

/-- If `bfLoop` reports a negative cycle, the final working vector satisfies
the `n`-edge walk bound yet still has a relaxable edge. -/
theorem bfLoop_none_spec {adj : List (List Edge)} {n : Nat}
    (hlen : adj.length = n) :
    ∀ {r k : Nat} {dist : List Int}, NonPos dist → DW adj dist →
    dist.length = n → BoundK adj k dist → bfLoop adj n r dist = some none →
    ∃ df, NonPos df ∧ DW adj df ∧ df.length = n ∧ BoundK adj (k + r) df ∧
      ∃ u, u < n ∧ ∃ row : List Edge, adj[u]? = some row ∧
        ∃ e ∈ row, e.to' < n ∧ getI df u + e.weight < getI df e.to' := by
  intro r
  induction r with
  | zero =>
    intro k dist hnp hdw hdl hbk hrun
    rw [bfLoop] at hrun
    obtain ⟨u, hu, row, hrow, hcr⟩ := checkVerts_none_spec hrun
    obtain ⟨e, he, h₁, h₂, h₃⟩ := checkRow_true_spec hnp hcr
    exact ⟨dist, hnp, hdw, hdl, hbk, u, by rw [← hdl]; omega, row, hrow,
      e, he, by omega, h₃⟩
  | succ r ih =>
    intro k dist hnp hdw hdl hbk hrun
    rw [bfLoop] at hrun
    split at hrun
    · exact absurd hrun (by simp)
    rename_i dc hdc
    split at hrun
    · exact absurd hrun (by simp)
    obtain ⟨hl, hnp', -, -, -⟩ := relaxVerts_spec hnp hdc
    have hdw' : DW adj dc.1 := relaxVerts_DW hdw hdc
    have hbk' : BoundK adj (k + 1) dc.1 := roundBound hlen hnp hbk hdc
    obtain ⟨df, h₁, h₂, h₃, h₄, h₅⟩ := ih hnp' hdw' (by omega) hbk' hrun
    refine ⟨df, h₁, h₂, h₃, ?_, h₅⟩
    have : k + 1 + r = k + (r + 1) := by omega
    rw [← this]
    exact h₄

/-- If Bellman-Ford returns `None` on a well-formed graph, the graph really
contains a negative cycle. -/
theorem bellman_ford_none_negcycle {adj : List (List Edge)} {n : Nat}
    (hlen : adj.length = n) (hwf : AdjWF adj)
    (hrun : bellman_ford adj n = some none) : NegCycleAdj adj := by
  by_contra hnc
  rw [bellman_ford] at hrun
  have hnp : NonPos (List.replicate n (0 : Int)) := by
    intro x hx
    rw [List.eq_of_mem_replicate hx]
  have hdw : DW adj (List.replicate n (0 : Int)) := by
    intro i _
    exact ⟨i, [], rfl, by rw [walkWeight_nil, getI_replicate]⟩
  have hbk : BoundK adj 0 (List.replicate n (0 : Int)) := by
    intro a l i hch hll
    obtain rfl : l = [] := List.length_eq_zero.mp (by omega)
    cases hch
    rw [walkWeight_nil, getI_replicate]
  obtain ⟨df, hnp', hdw', hdl', hbk', u, hu, row, hrow, e, he, hto, hlt⟩ :=
    bfLoop_none_spec hlen hnp hdw (by simp) hbk hrun
  obtain ⟨a, l, hch, hww⟩ := hdw' u (by omega)
  have hrel : adjRel adj u e.to' e.weight := ⟨row, hrow, he⟩
  have hext : chainW (adjRel adj) a (l ++ [(e.to', e.weight)]) e.to' :=
    chainW_snoc hch hrel
  obtain ⟨l', hch', hw', hl'⟩ := walk_reduce hwf hnc _ a _ e.to' rfl hext
  have hbound := hbk' a l' e.to' hch' (by omega)
  rw [walkWeight_append, walkWeight_cons, walkWeight_nil] at hw'
  simp only at hw'
  omega

/-! ## Claims C10 and C3 -/

/-- **C10**: every potential vector returned by `bellman_ford` has all
entries `≤ 0` (distances start at `0` and every update strictly decreases
them, through every relaxation round and both return paths). -/
theorem claim_C10 (adj_list : List (List Edge)) (num_nodes : Nat)
    (h : List Int) (hrun : bellman_ford adj_list num_nodes = some (some h)) :
    ∀ x ∈ h, x ≤ 0 :=
  (bellman_ford_success hrun).2.1

/-- Witness for **C10** on the example graph, whose potential vector is
`[0, -5, -3]`. -/
theorem claim_C10_witness : (-5 : Int) ≤ 0 :=
  claim_C10 [[⟨1, -5⟩, ⟨2, 3⟩], [⟨2, 2⟩], [⟨0, 4⟩]] 3 [0, -5, -3] (by rfl)
    (-5) (by simp)

/-- **C3**: whenever `bellman_ford` succeeds (including via the early exit
when a round changes nothing), every reweighted weight
`w + h[u] - h[v]` is non-negative: both as an inequality on the adjacency
list and for every edge actually produced by the reweighting loop. -/
theorem claim_C3 (adj_list : List (List Edge)) (num_nodes : Nat)
    (h : List Int) (hlen : adj_list.length = num_nodes)
    (hrun : bellman_ford adj_list num_nodes = some (some h)) :
    (∀ (u : Nat) (row : List Edge), adj_list[u]? = some row →
      ∀ e ∈ row, 0 ≤ e.weight + getI h u - getI h e.to') ∧
    (∀ radj, reweightAll adj_list h (List.range num_nodes) = some radj →
      ∀ row ∈ radj, ∀ e ∈ row, 0 ≤ e.weight) := by
  obtain ⟨-, -, hfix⟩ := bellman_ford_success hrun
  have hmain : ∀ (u : Nat) (row : List Edge), adj_list[u]? = some row →
      ∀ e ∈ row, 0 ≤ e.weight + getI h u - getI h e.to' := by
    intro u row hrow e he
    have hu : u < num_nodes := by
      have := (List.getElem?_eq_some.mp hrow).1
      omega
    obtain ⟨row', hrow', hbnd⟩ := hfix u hu
    rw [hrow] at hrow'
    obtain rfl : row = row' := by injection hrow'
    obtain ⟨-, hr⟩ := hbnd e he
    omega
  refine ⟨hmain, fun radj hradj row hrow e he => ?_⟩
  obtain ⟨u, -, row₀, hrow₀, hrw⟩ := reweightAll_mem hradj row hrow
  obtain ⟨e₀, he₀, hu, hv, hhu, hhv, rfl⟩ := reweightRow_mem hrw e he
  have := hmain u row₀ hrow₀ e₀ he₀
  rw [getI_eq hhu, getI_eq hhv] at this
  simpa using this

/-! ## Claim C2 -/

/-- `johnsons_algorithm` returns the negative-cycle error exactly when its
Bellman-Ford phase reports `None`; no other outcome produces that error. -/
theorem johnsons_error_iff {num_nodes : Nat} {edges : List (Nat × Nat × Int)}
    {adj : List (List Edge)}
    (hb : buildAdj edges (List.replicate num_nodes []) = some adj) :
    johnsons_algorithm num_nodes edges =
        some (Except.error "Negative Cycle Detected") ↔
      bellman_ford adj num_nodes = some none := by
  simp only [johnsons_algorithm, hb]
  rcases hbf : bellman_ford adj num_nodes with _ | h'
  · simp
  rcases h' with _ | h
  · simp
  · simp only
    rcases hrw : reweightAll adj h (List.range num_nodes) with _ | radj
    · simp
    · simp only
      rcases hap : apspRows radj h num_nodes (List.range num_nodes) with _ | m
      · simp
      · simp

/-- **C2**: on a well-formed input (all endpoints in range),
`johnsons_algorithm` returns the `"Negative Cycle Detected"` error — and
hence no matrix — if and only if the graph has a directed cycle of negative
total weight; the error can only originate from Bellman-Ford's verification
pass reporting `None`. -/
theorem claim_C2 (num_nodes : Nat) (edges : List (Nat × Nat × Int))
    (hval : ValidEdges num_nodes edges) :
    johnsons_algorithm num_nodes edges =
        some (Except.error "Negative Cycle Detected") ↔
      HasNegCycle edges := by
  obtain ⟨adj, hb⟩ := buildAdj_some edges (List.replicate num_nodes []) (by
    intro e he
    rw [List.length_replicate]
    exact (hval e he).1)
  have hlen := builtAdj_length hb
  have hwf := builtAdj_wf hval hb
  rw [johnsons_error_iff hb]
  constructor
  · intro hbf
    exact (builtAdj_negcycle_iff hb).mp (bellman_ford_none_negcycle hlen hwf hbf)
  · intro hneg
    obtain ⟨res, hres⟩ := bellman_ford_total hlen hwf
    rcases res with _ | h
    · exact hres
    · exfalso
      obtain ⟨-, -, hfix⟩ := bellman_ford_success hres
      exact BFFix_no_negcycle hlen hfix ((builtAdj_negcycle_iff hb).mpr hneg)

/-- Witness for **C2**: the two-vertex graph with edges `(0,1,-1)` and
`(1,0,-1)` has a negative cycle and the algorithm reports it. -/
theorem claim_C2_witness :
    johnsons_algorithm 2 [(0, 1, -1), (1, 0, -1)] =
      some (Except.error "Negative Cycle Detected") := by
  apply (claim_C2 2 [(0, 1, -1), (1, 0, -1)] (by
    intro e he
    fin_cases he <;> simp)).mpr
  refine ⟨0, [(1, -1), (0, -1)], by simp, ?_, by simp [walkWeight]⟩
  simp [chainW, edgeRel]

/-- Witness for **C3** on the example graph: the reweighted weight of edge
`(0, 1, -5)` with potentials `[0, -5, -3]` is `-5 + 0 - (-5) = 0 ≥ 0`. -/
theorem claim_C3_witness :
    0 ≤ (-5 : Int) + getI [0, -5, -3] 0 - getI [0, -5, -3] 1 :=
  (claim_C3 [[⟨1, -5⟩, ⟨2, 3⟩], [⟨2, 2⟩], [⟨0, 4⟩]] 3 [0, -5, -3] rfl
    (by rfl)).1 0 [⟨1, -5⟩, ⟨2, 3⟩] (by rfl) ⟨1, -5⟩ (by simp)

end APSP

namespace APSP

/-! ## Dijkstra: accessors and invariant predicates -/

/-- Value of a Dijkstra distance vector at index `i` (default `none`). -/
def getO (l : List (Option Int)) (i : Nat) : Option Int :=
  l.getD i none

/-- All edge weights of an adjacency list are non-negative. -/
def NonNegW (adj : List (List Edge)) : Prop :=
  ∀ (u : Nat) (row : List Edge), adj[u]? = some row → ∀ e ∈ row, 0 ≤ e.weight

/-- The recorded distance `d` at `u` cannot be improved along any single
outgoing edge of `u`. -/
def StableAt (adj : List (List Edge)) (dist : List (Option Int)) (u : Nat)
    (d : Int) : Prop :=
  ∀ row : List Edge, adj[u]? = some row →
    ∀ e ∈ row, ∃ d₂, getO dist e.to' = some d₂ ∧ d₂ ≤ d + e.weight

/-- Every recorded distance is realised by a walk from `start`. -/
def SoundD (adj : List (List Edge)) (start : Nat)
    (dist : List (Option Int)) : Prop :=
  ∀ i d, getO dist i = some d →
    ∃ l, chainW (adjRel adj) start l i ∧ walkWeight l = d

/-- Pointwise refinement of distance vectors: every recorded value stays
recorded and only decreases. -/
def distLeO (d₂ d₁ : List (Option Int)) : Prop :=
  ∀ i v₁, getO d₁ i = some v₁ → ∃ v₂, getO d₂ i = some v₂ ∧ v₂ ≤ v₁

theorem getO_eq {l : List (Option Int)} {i : Nat} {v : Option Int}
    (h : l[i]? = some v) : getO l i = v := by
  simp [getO, List.getD_eq_getElem?_getD, h]

theorem getO_eq_getElem {l : List (Option Int)} {i : Nat} (h : i < l.length) :
    getO l i = l[i] :=
  getO_eq (List.getElem?_eq_getElem h)

theorem getO_set_self {l : List (Option Int)} {i : Nat} (v : Option Int)
    (h : i < l.length) : getO (l.set i v) i = v := by
  simp [getO, List.getD_eq_getElem?_getD, List.getElem?_set_self h]

theorem getO_set_other {l : List (Option Int)} {i j : Nat} (v : Option Int)
    (h : i ≠ j) : getO (l.set i v) j = getO l j := by
  simp [getO, List.getD_eq_getElem?_getD, List.getElem?_set_ne h]

theorem getO_lt_length {l : List (Option Int)} {i : Nat} {d : Int}
    (h : getO l i = some d) : i < l.length := by
  by_contra hge
  rw [getO, List.getD_eq_getElem?_getD, List.getElem?_eq_none (by omega)] at h
  exact absurd h (by simp)

theorem distLeO_refl (d : List (Option Int)) : distLeO d d :=
  fun i v₁ h => ⟨v₁, h, le_refl _⟩

theorem distLeO_trans {d₃ d₂ d₁ : List (Option Int)} (h₂ : distLeO d₃ d₂)
    (h₁ : distLeO d₂ d₁) : distLeO d₃ d₁ := by
  intro i v₁ hv₁
  obtain ⟨v₂, hv₂, hle₂⟩ := h₁ i v₁ hv₁
  obtain ⟨v₃, hv₃, hle₃⟩ := h₂ i v₂ hv₂
  exact ⟨v₃, hv₃, by omega⟩

theorem stableAt_mono {adj : List (List Edge)} {dist dist₂ : List (Option Int)}
    {u : Nat} {d : Int} (hst : StableAt adj dist u d)
    (hle : distLeO dist₂ dist) : StableAt adj dist₂ u d := by
  intro row hrow e he
  obtain ⟨d₂, hd₂, hle₂⟩ := hst row hrow e he
  obtain ⟨v₂, hv₂, hle₃⟩ := hle e.to' d₂ hd₂
  exact ⟨v₂, hv₂, by omega⟩

theorem walkWeight_nonneg {adj : List (List Edge)} (hgw : NonNegW adj) :
    ∀ {l : List (Nat × Int)} {a i : Nat}, chainW (adjRel adj) a l i →
      0 ≤ walkWeight l := by
  intro l
  induction l with
  | nil => intro a i _; rw [walkWeight_nil]
  | cons s rest ih =>
    intro a i h
    obtain ⟨⟨row, hrow, hmem⟩, hc⟩ := h
    have hw := hgw a row hrow _ hmem
    have := ih hc
    rw [walkWeight_cons]
    simp only at hw
    omega

/-! ## The heap: order characterisation, pop properties -/

/-- Characterisation of the manual `Ord`: `s` is `Less` than `other` exactly
when `s` has the larger cost, or equal cost and the smaller position. -/
theorem State.cmp_eq_lt {s t : State} :
    State.cmp s t = Ordering.lt ↔
      (t.cost < s.cost ∨ (t.cost = s.cost ∧ s.position < t.position)) := by
  rw [State.cmp]
  rcases htc : compare t.cost s.cost with _ | _ | _
  · simp only [Ordering.then]
    have := compare_lt_iff_lt.mp htc
    simp only [true_iff]
    exact Or.inl this
  · simp only [Ordering.then]
    have heq := compare_eq_iff_eq.mp htc
    rw [Nat.compare_eq_lt]
    constructor
    · intro h; exact Or.inr ⟨heq, h⟩
    · rintro (h | ⟨-, h⟩)
      · omega
      · exact h
  · simp only [Ordering.then]
    have := compare_gt_iff_gt.mp htc
    constructor
    · intro h; exact absurd h (by simp)
    · rintro (h | ⟨heq, -⟩) <;> omega

theorem popMaxAux_spec : ∀ (rest : List State) (s : State),
    (s :: rest).Perm ((popMaxAux s rest).1 :: (popMaxAux s rest).2) ∧
      ∀ t ∈ s :: rest, State.cmp (popMaxAux s rest).1 t ≠ Ordering.lt := by
  intro rest
  induction rest with
  | nil =>
    intro s
    refine ⟨List.Perm.refl _, ?_⟩
    intro t ht
    rcases List.mem_cons.mp ht with rfl | ht
    · intro hlt
      rw [State.cmp_eq_lt] at hlt
      simp only [popMaxAux] at hlt
      omega
    · exact absurd ht (List.not_mem_nil _)
  | cons t rest ih =>
    intro s
    by_cases hst : State.cmp s t = Ordering.lt
    · obtain ⟨hperm, hmax⟩ := ih t
      have hred : popMaxAux s (t :: rest) =
          ((popMaxAux t rest).1, s :: (popMaxAux t rest).2) := by
        rw [popMaxAux, if_pos hst]
      rw [hred]
      dsimp only
      constructor
      · exact (List.Perm.cons s hperm).trans (List.Perm.swap _ _ _)
      · intro x hx
        rcases List.mem_cons.mp hx with rfl | hx
        · have h₁ := hmax t (List.mem_cons_self ..)
          intro hlt
          rw [State.cmp_eq_lt] at hst hlt
          rw [ne_eq, State.cmp_eq_lt] at h₁
          omega
        · exact hmax x hx
    · obtain ⟨hperm, hmax⟩ := ih s
      have hred : popMaxAux s (t :: rest) =
          ((popMaxAux s rest).1, t :: (popMaxAux s rest).2) := by
        rw [popMaxAux, if_neg hst]
      rw [hred]
      dsimp only
      constructor
      · exact ((List.Perm.swap t s rest).trans
          (List.Perm.cons t hperm)).trans (List.Perm.swap _ _ _)
      · intro x hx
        rcases List.mem_cons.mp hx with rfl | hx
        · exact hmax x (List.mem_cons_self ..)
        rcases List.mem_cons.mp hx with rfl | hx
        · have h₁ := hmax s (List.mem_cons_self ..)
          intro hlt
          rw [State.cmp_eq_lt] at hst hlt
          rw [ne_eq, State.cmp_eq_lt] at h₁
          omega
        · exact hmax x (List.mem_cons_of_mem _ hx)

theorem heapPop_perm {heap : List State} {s : State} {rest : List State}
    (h : heapPop heap = some (s, rest)) : heap.Perm (s :: rest) := by
  cases heap with
  | nil => exact absurd h (by simp [heapPop])
  | cons s₀ rest₀ =>
    rw [heapPop] at h
    simp only [Option.some.injEq, Prod.ext_iff] at h
    obtain ⟨h₁, h₂⟩ := h
    rw [← h₁, ← h₂]
    exact (popMaxAux_spec rest₀ s₀).1

theorem heapPop_max {heap : List State} {s : State} {rest : List State}
    (h : heapPop heap = some (s, rest)) :
    ∀ t ∈ heap, State.cmp s t ≠ Ordering.lt := by
  cases heap with
  | nil => exact absurd h (by simp [heapPop])
  | cons s₀ rest₀ =>
    rw [heapPop] at h
    simp only [Option.some.injEq, Prod.ext_iff] at h
    obtain ⟨h₁, -⟩ := h
    rw [← h₁]
    exact (popMaxAux_spec rest₀ s₀).2

/-- The popped entry has minimal cost among all heap entries. -/
theorem heapPop_min_cost {heap : List State} {s : State} {rest : List State}
    (h : heapPop heap = some (s, rest)) : ∀ t ∈ heap, s.cost ≤ t.cost := by
  intro t ht
  have := heapPop_max h t ht
  rw [ne_eq, State.cmp_eq_lt] at this
  omega

theorem heapPop_none {heap : List State} (h : heapPop heap = none) :
    heap = [] := by
  cases heap with
  | nil => rfl
  | cons s rest => exact absurd h (by simp [heapPop])

theorem heapPop_mem {heap : List State} {s : State} {rest : List State}
    (h : heapPop heap = some (s, rest)) : s ∈ heap :=
  (heapPop_perm h).mem_iff.mpr (List.mem_cons_self ..)

theorem heapPop_rest_subset {heap : List State} {s : State} {rest : List State}
    (h : heapPop heap = some (s, rest)) : ∀ t ∈ rest, t ∈ heap :=
  fun t ht => (heapPop_perm h).mem_iff.mpr (List.mem_cons_of_mem _ ht)

theorem heapPop_length {heap : List State} {s : State} {rest : List State}
    (h : heapPop heap = some (s, rest)) : heap.length = rest.length + 1 := by
  have := (heapPop_perm h).length_eq
  simpa using this

/-! ## The relaxation loop of Dijkstra -/

/-- Helper for `dijkstraRelax_spec`: the update branch, given the
conclusions of the recursive call on the updated state. -/
theorem dijkstraRelax_update {c : Int} {e : Edge} {rest : List Edge}
    {dist dist₂ : List (Option Int)} {heap heap₂ : List State}
    (hto : e.to' < dist.length) (hwe : 0 ≤ e.weight)
    (hcase : getO dist e.to' = none ∨
      ∃ d, getO dist e.to' = some d ∧ c + e.weight < d)
    (hih : dist₂.length = (dist.set e.to' (some (c + e.weight))).length ∧
      distLeO dist₂ (dist.set e.to' (some (c + e.weight))) ∧
      (∀ t ∈ (⟨c + e.weight, e.to'⟩ : State) :: heap, t ∈ heap₂) ∧
      (∀ t ∈ heap₂, t ∈ (⟨c + e.weight, e.to'⟩ : State) :: heap ∨
        ∃ e' ∈ rest, t.cost = c + e'.weight ∧ t.position = e'.to' ∧
          ∃ v, getO dist₂ t.position = some v ∧ v ≤ t.cost) ∧
      (∀ e' ∈ rest, ∃ v, getO dist₂ e'.to' = some v ∧ v ≤ c + e'.weight) ∧
      (∀ v dv, getO (dist.set e.to' (some (c + e.weight))) v = some dv →
        dv ≤ c → getO dist₂ v = some dv) ∧
      heap₂.length ≤ ((⟨c + e.weight, e.to'⟩ : State) :: heap).length +
        rest.length) :
    dist₂.length = dist.length ∧
    distLeO dist₂ dist ∧
    (∀ t ∈ heap, t ∈ heap₂) ∧
    (∀ t ∈ heap₂, t ∈ heap ∨ ∃ e' ∈ e :: rest, t.cost = c + e'.weight ∧
      t.position = e'.to' ∧ ∃ v, getO dist₂ t.position = some v ∧
        v ≤ t.cost) ∧
    (∀ e' ∈ e :: rest, ∃ v, getO dist₂ e'.to' = some v ∧
      v ≤ c + e'.weight) ∧
    (∀ v dv, getO dist v = some dv → dv ≤ c → getO dist₂ v = some dv) ∧
    heap₂.length ≤ heap.length + (e :: rest).length := by
  obtain ⟨hl, hle, hsub, hchar, hrow6, hfix, hlen⟩ := hih
  have hl' : (dist.set e.to' (some (c + e.weight))).length = dist.length :=
    List.length_set ..
  have hmid : getO (dist.set e.to' (some (c + e.weight))) e.to' =
      some (c + e.weight) := getO_set_self _ hto
  have hle₀ : distLeO (dist.set e.to' (some (c + e.weight))) dist := by
    intro i v₁ hv₁
    by_cases hie : e.to' = i
    · subst hie
      rcases hcase with hnone | ⟨d, hd, hlt⟩
      · rw [hnone] at hv₁
        exact absurd hv₁ (by simp)
      · rw [hd] at hv₁
        obtain rfl : d = v₁ := by injection hv₁
        exact ⟨c + e.weight, hmid, by omega⟩
    · rw [getO_set_other _ hie]
      exact ⟨v₁, hv₁, le_refl _⟩
  refine ⟨by omega, distLeO_trans hle hle₀, ?_, ?_, ?_, ?_, ?_⟩
  · exact fun t ht => hsub t (List.mem_cons_of_mem _ ht)
  · intro t ht
    rcases hchar t ht with ht' | ⟨e', he', h₁, h₂, h₃⟩
    · rcases List.mem_cons.mp ht' with rfl | ht''
      · refine Or.inr ⟨e, List.mem_cons_self .., rfl, rfl, ?_⟩
        exact hle e.to' (c + e.weight) hmid
      · exact Or.inl ht''
    · exact Or.inr ⟨e', List.mem_cons_of_mem _ he', h₁, h₂, h₃⟩
  · intro e' he'
    rcases List.mem_cons.mp he' with rfl | he'
    · exact hle e'.to' (c + e'.weight) hmid
    · exact hrow6 e' he'
  · intro v dv₀ hv hvc
    have hvt : getO (dist.set e.to' (some (c + e.weight))) v = some dv₀ := by
      by_cases hve : e.to' = v
      · subst hve
        rcases hcase with hnone | ⟨d, hd, hlt⟩
        · rw [hnone] at hv
          exact absurd hv (by simp)
        · rw [hd] at hv
          obtain rfl : d = dv₀ := by injection hv
          omega
      · rw [getO_set_other _ hve]
        exact hv
    exact hfix v dv₀ hvt hvc
  · simp only [List.length_cons] at hlen ⊢
    omega

/-- Master lemma for relaxing one row at popped cost `c` (all row weights
non-negative): lengths are preserved, recorded distances only improve, the
heap only grows by entries of the form `⟨c + w, e.to'⟩` that are backed by
their recorded distance, after the row every edge target is settled below
`c + w`, and any entry already recorded at a value `≤ c` is untouched. -/
theorem dijkstraRelax_spec {c : Int} :
    ∀ {row : List Edge} {dist dist₂ : List (Option Int)}
      {heap heap₂ : List State},
      (∀ e ∈ row, 0 ≤ e.weight) →
      dijkstraRelax c row dist heap = some (dist₂, heap₂) →
      dist₂.length = dist.length ∧
      distLeO dist₂ dist ∧
      (∀ t ∈ heap, t ∈ heap₂) ∧
      (∀ t ∈ heap₂, t ∈ heap ∨ ∃ e ∈ row, t.cost = c + e.weight ∧
        t.position = e.to' ∧ ∃ v, getO dist₂ t.position = some v ∧ v ≤ t.cost) ∧
      (∀ e ∈ row, ∃ v, getO dist₂ e.to' = some v ∧ v ≤ c + e.weight) ∧
      (∀ v dv, getO dist v = some dv → dv ≤ c → getO dist₂ v = some dv) ∧
      heap₂.length ≤ heap.length + row.length := by
  intro row
  induction row with
  | nil =>
    intro dist dist₂ heap heap₂ _ hrun
    simp only [dijkstraRelax, Option.some.injEq, Prod.mk.injEq] at hrun
    obtain ⟨rfl, rfl⟩ := hrun
    refine ⟨rfl, distLeO_refl _, fun t ht => ht, fun t ht => Or.inl ht,
      by simp, fun v dv h _ => h, by simp⟩
  | cons e rest ih =>
    intro dist dist₂ heap heap₂ hw hrun
    have hwe : 0 ≤ e.weight := hw e (List.mem_cons_self ..)
    have hwrest : ∀ e' ∈ rest, 0 ≤ e'.weight :=
      fun e' he' => hw e' (List.mem_cons_of_mem _ he')
    rw [dijkstraRelax] at hrun
    split at hrun
    · exact absurd hrun (by simp)
    rename_i dv hdv
    have hto : e.to' < dist.length := (List.getElem?_eq_some.mp hdv).1
    have hgodv : getO dist e.to' = dv := getO_eq hdv
    rcases dv with _ | d
    · -- unreached target: always shorter
      simp only [] at hrun
      split at hrun
      · exact dijkstraRelax_update hto hwe (Or.inl hgodv) (ih hwrest hrun)
      · rename_i hshort
        simp at hshort
    · simp only [] at hrun
      split at hrun
      · rename_i hshort
        simp only [decide_eq_true_eq] at hshort
        exact dijkstraRelax_update hto hwe (Or.inr ⟨d, hgodv, hshort⟩)
          (ih hwrest hrun)
      · rename_i hshort
        have hge : d ≤ c + e.weight := by
          by_contra hlt
          exact hshort (by simp; omega)
        obtain ⟨hl, hle, hsub, hchar, hrow6, hfix, hlen⟩ := ih hwrest hrun
        refine ⟨hl, hle, hsub, ?_, ?_, hfix, ?_⟩
        · intro t ht
          rcases hchar t ht with ht' | ⟨e', he', h₁, h₂, h₃⟩
          · exact Or.inl ht'
          · exact Or.inr ⟨e', List.mem_cons_of_mem _ he', h₁, h₂, h₃⟩
        · intro e' he'
          rcases List.mem_cons.mp he' with rfl | he'
          · obtain ⟨v, hv, hlev⟩ := hle e'.to' d hgodv
            exact ⟨v, hv, by omega⟩
          · exact hrow6 e' he'
        · simp only [List.length_cons] at hlen ⊢
          omega

/-- Relaxation preserves walk realisability of all recorded distances, when
the popped cost is itself realised by a walk to `x` and the row consists of
edges out of `x`. -/
theorem dijkstraRelax_sound {adj : List (List Edge)} {start x : Nat}
    {c : Int} :
    ∀ {row : List Edge} {dist dist₂ : List (Option Int)}
      {heap heap₂ : List State},
      (∃ lc, chainW (adjRel adj) start lc x ∧ walkWeight lc = c) →
      (∀ e ∈ row, adjRel adj x e.to' e.weight) →
      SoundD adj start dist →
      dijkstraRelax c row dist heap = some (dist₂, heap₂) →
      SoundD adj start dist₂ := by
  intro row
  induction row with
  | nil =>
    intro dist dist₂ heap heap₂ _ _ hsound hrun
    simp only [dijkstraRelax, Option.some.injEq, Prod.mk.injEq] at hrun
    obtain ⟨rfl, -⟩ := hrun
    exact hsound
  | cons e rest ih =>
    intro dist dist₂ heap heap₂ hcx hrel hsound hrun
    obtain ⟨lc, hlc, hwc⟩ := hcx
    rw [dijkstraRelax] at hrun
    split at hrun
    · exact absurd hrun (by simp)
    rename_i dv hdv
    have hto : e.to' < dist.length := (List.getElem?_eq_some.mp hdv).1
    have hrelrest : ∀ e' ∈ rest, adjRel adj x e'.to' e'.weight :=
      fun e' he' => hrel e' (List.mem_cons_of_mem _ he')
    have hsound' : SoundD adj start (dist.set e.to' (some (c + e.weight))) := by
      intro i d hd
      by_cases hie : e.to' = i
      · subst hie
        rw [getO_set_self _ hto] at hd
        obtain rfl : c + e.weight = d := by injection hd
        refine ⟨lc ++ [(e.to', e.weight)], ?_, ?_⟩
        · exact chainW_snoc hlc (hrel e (List.mem_cons_self ..))
        · rw [walkWeight_append, walkWeight_cons, walkWeight_nil, hwc]
          omega
      · rw [getO_set_other _ hie] at hd
        exact hsound i d hd
    rcases dv with _ | d
    · simp only [] at hrun
      split at hrun
      · exact ih ⟨lc, hlc, hwc⟩ hrelrest hsound' hrun
      · rename_i hshort
        simp at hshort
    · simp only [] at hrun
      split at hrun
      · exact ih ⟨lc, hlc, hwc⟩ hrelrest hsound' hrun
      · exact ih ⟨lc, hlc, hwc⟩ hrelrest hsound hrun

/-- Relaxation preserves the stability disjunction: every recorded vertex is
stable, or has a backing heap entry, or is the vertex being expanded at the
popped cost. -/
theorem dijkstraRelax_stab {adj : List (List Edge)} {x : Nat} {c : Int} :
    ∀ {row : List Edge} {dist dist₂ : List (Option Int)}
      {heap heap₂ : List State},
      dijkstraRelax c row dist heap = some (dist₂, heap₂) →
      (∀ u d, getO dist u = some d →
        StableAt adj dist u d ∨ (⟨d, u⟩ : State) ∈ heap ∨ (u = x ∧ d = c)) →
      ∀ u d, getO dist₂ u = some d →
        StableAt adj dist₂ u d ∨ (⟨d, u⟩ : State) ∈ heap₂ ∨
          (u = x ∧ d = c) := by
  intro row
  induction row with
  | nil =>
    intro dist dist₂ heap heap₂ hrun hstab
    simp only [dijkstraRelax, Option.some.injEq, Prod.mk.injEq] at hrun
    obtain ⟨rfl, rfl⟩ := hrun
    exact hstab
  | cons e rest ih =>
    intro dist dist₂ heap heap₂ hrun hstab
    rw [dijkstraRelax] at hrun
    split at hrun
    · exact absurd hrun (by simp)
    rename_i dv hdv
    have hto : e.to' < dist.length := (List.getElem?_eq_some.mp hdv).1
    have hgodv : getO dist e.to' = dv := getO_eq hdv
    have hstab' : (dv = none ∨ ∃ d₀, dv = some d₀ ∧ c + e.weight < d₀) →
        ∀ u d, getO (dist.set e.to' (some (c + e.weight))) u = some d →
          StableAt adj (dist.set e.to' (some (c + e.weight))) u d ∨
            (⟨d, u⟩ : State) ∈
              ((⟨c + e.weight, e.to'⟩ : State) :: heap) ∨ (u = x ∧ d = c) := by
      intro hcase u d hd
      by_cases hue : e.to' = u
      · subst hue
        rw [getO_set_self _ hto] at hd
        obtain rfl : c + e.weight = d := by injection hd
        exact Or.inr (Or.inl (List.mem_cons_self ..))
      · rw [getO_set_other _ hue] at hd
        rcases hstab u d hd with hst | hmem | hesc
        · refine Or.inl ?_
          intro row' hrow' et het
          obtain ⟨d₂, hd₂, hled₂⟩ := hst row' hrow' et het
          by_cases hte : e.to' = et.to'
          · rw [← hte, hgodv] at hd₂
            rcases hcase with rfl | ⟨d₀, rfl, hlt⟩
            · exact absurd hd₂ (by simp)
            · obtain rfl : d₀ = d₂ := by injection hd₂
              refine ⟨c + e.weight, ?_, by omega⟩
              rw [← hte]
              exact getO_set_self _ hto
          · refine ⟨d₂, ?_, hled₂⟩
            rw [getO_set_other _ hte]
            exact hd₂
        · exact Or.inr (Or.inl (List.mem_cons_of_mem _ hmem))
        · exact Or.inr (Or.inr hesc)
    rcases dv with _ | d₀
    · simp only [] at hrun
      split at hrun
      · exact ih hrun (hstab' (Or.inl rfl))
      · rename_i hshort
        simp at hshort
    · simp only [] at hrun
      split at hrun
      · rename_i hshort
        simp only [decide_eq_true_eq] at hshort
        exact ih hrun (hstab' (Or.inr ⟨d₀, rfl, hshort⟩))
      · exact ih hrun hstab

/-- Relaxing a row that is already stable at cost `c` changes nothing. -/
theorem dijkstraRelax_noop {c : Int} :
    ∀ {row : List Edge} {dist : List (Option Int)} {heap : List State},
      (∀ e ∈ row, ∃ d₂, getO dist e.to' = some d₂ ∧ d₂ ≤ c + e.weight) →
      (∀ e ∈ row, e.to' < dist.length) →
      dijkstraRelax c row dist heap = some (dist, heap) := by
  intro row
  induction row with
  | nil => intro dist heap _ _; rfl
  | cons e rest ih =>
    intro dist heap hstable hb
    obtain ⟨d₂, hd₂, hled₂⟩ := hstable e (List.mem_cons_self ..)
    have hto : e.to' < dist.length := hb e (List.mem_cons_self ..)
    have hread : dist[e.to']? = some (some d₂) := by
      rw [List.getElem?_eq_getElem hto, ← getO_eq_getElem hto, hd₂]
    rw [dijkstraRelax, hread]
    simp only []
    rw [if_neg (by simp; omega)]
    exact ih (fun e' he' => hstable e' (List.mem_cons_of_mem _ he'))
      (fun e' he' => hb e' (List.mem_cons_of_mem _ he'))

/-- Relaxation always succeeds when every target index is in bounds. -/
theorem dijkstraRelax_total {c : Int} :
    ∀ {row : List Edge} {dist : List (Option Int)} {heap : List State},
      (∀ e ∈ row, e.to' < dist.length) →
      ∃ out, dijkstraRelax c row dist heap = some out := by
  intro row
  induction row with
  | nil => exact fun _ => ⟨_, rfl⟩
  | cons e rest ih =>
    intro dist heap hb
    have hto : e.to' < dist.length := hb e (List.mem_cons_self ..)
    rw [dijkstraRelax, List.getElem?_eq_getElem hto]
    simp only []
    split
    · exact ih (fun e' he' => by
        rw [List.length_set]
        exact hb e' (List.mem_cons_of_mem _ he'))
    · exact ih (fun e' he' => hb e' (List.mem_cons_of_mem _ he'))

/-! ## The Dijkstra main loop: partial correctness -/

/-- Loop invariant of `dijkstraLoop`: lengths match, heap entries point at
recorded vertices below their cost, recorded distances are walk-realisable,
every recorded vertex is edge-stable or has a backing heap entry, and the
start vertex is recorded at a non-positive value. -/
def DInvP (adj : List (List Edge)) (start : Nat) (dist : List (Option Int))
    (heap : List State) : Prop :=
  dist.length = adj.length ∧
  (∀ s ∈ heap, s.position < adj.length) ∧
  (∀ s ∈ heap, ∃ d, getO dist s.position = some d ∧ d ≤ s.cost) ∧
  SoundD adj start dist ∧
  (∀ u d, getO dist u = some d →
    StableAt adj dist u d ∨ (⟨d, u⟩ : State) ∈ heap) ∧
  (∃ d₀, getO dist start = some d₀ ∧ d₀ ≤ 0)

/-- Whatever the loop returns satisfies the invariant with an empty heap. -/
theorem dijkstraLoop_partial {adj : List (List Edge)} {start : Nat}
    (hwf : AdjWF adj) (hgw : NonNegW adj) :
    ∀ {fuel : Nat} {dist : List (Option Int)} {heap : List State}
      {res : List (Option Int)},
      DInvP adj start dist heap →
      dijkstraLoop adj fuel dist heap = some res →
      DInvP adj start res [] := by
  intro fuel
  induction fuel with
  | zero =>
    intro dist heap res _ hrun
    exact absurd hrun (by simp [dijkstraLoop])
  | succ fuel ih =>
    intro dist heap res hinv hrun
    rw [dijkstraLoop] at hrun
    split at hrun
    · rename_i hpop
      simp only [Option.some.injEq] at hrun
      subst hrun
      obtain rfl : heap = [] := heapPop_none hpop
      exact hinv
    rename_i s rest hpop
    obtain ⟨hlen, hpos, hkey, hsound, hstab, hstart⟩ := hinv
    have hsmem : s ∈ heap := heapPop_mem hpop
    have hspos : s.position < adj.length := hpos s hsmem
    obtain ⟨d, hd, hdc⟩ := hkey s hsmem
    have hread : dist[s.position]? = some (some d) := by
      rw [List.getElem?_eq_getElem (by omega), ← getO_eq_getElem (by omega), hd]
    rw [hread] at hrun
    simp only [] at hrun
    split at hrun
    · -- stale entry: its cost exceeds the recorded distance
      rename_i hstale
      simp only [decide_eq_true_eq] at hstale
      refine ih ⟨hlen, ?_, ?_, hsound, ?_, hstart⟩ hrun
      · exact fun t ht => hpos t (heapPop_rest_subset hpop t ht)
      · exact fun t ht => hkey t (heapPop_rest_subset hpop t ht)
      · intro u d' hd'
        rcases hstab u d' hd' with hst | hmem
        · exact Or.inl hst
        · rcases List.mem_cons.mp ((heapPop_perm hpop).mem_iff.mp hmem)
            with heq | hmem'
          · exfalso
            have h₁ : u = s.position := congrArg State.position heq
            have h₂ : d' = s.cost := congrArg State.cost heq
            rw [h₁, hd] at hd'
            obtain rfl : d = d' := by injection hd'
            omega
          · exact Or.inr hmem'
    · -- fresh entry: expand the vertex
      rename_i hfresh
      have hceq : s.cost = d := by
        simp only [decide_eq_true_eq] at hfresh
        omega
      have hadjread : adj[s.position]? = some adj[s.position] :=
        List.getElem?_eq_getElem hspos
      rw [hadjread] at hrun
      simp only [] at hrun
      split at hrun
      · exact absurd hrun (by simp)
      rename_i dh hdh
      obtain ⟨dist₂, heap₂⟩ := dh
      have hroww : ∀ e ∈ adj[s.position], 0 ≤ e.weight :=
        fun e he => hgw s.position _ hadjread e he
      obtain ⟨hl₂, hle₂, hsub₂, hchar₂, hrow6, hfix₂, -⟩ :=
        dijkstraRelax_spec hroww hdh
      have hxunchanged : getO dist₂ s.position = some s.cost := by
        apply hfix₂ s.position s.cost
        · rw [hd, hceq]
        · exact le_refl _
      have hsound₂ : SoundD adj start dist₂ := by
        refine dijkstraRelax_sound (x := s.position) ?_ ?_ hsound hdh
        · obtain ⟨lw, hlw, hww⟩ := hsound s.position d hd
          exact ⟨lw, hlw, by omega⟩
        · exact fun e he => ⟨adj[s.position], hadjread, he⟩
      have hstab₂ := dijkstraRelax_stab hdh (fun u d' hd' => by
        rcases hstab u d' hd' with hst | hmem
        · exact Or.inl hst
        · rcases List.mem_cons.mp ((heapPop_perm hpop).mem_iff.mp hmem)
            with heq | hmem'
          · exact Or.inr (Or.inr
              ⟨congrArg State.position heq, congrArg State.cost heq⟩)
          · exact Or.inr (Or.inl hmem'))
      have hstab₃ : ∀ u d', getO dist₂ u = some d' →
          StableAt adj dist₂ u d' ∨ (⟨d', u⟩ : State) ∈ heap₂ := by
        intro u d' hd'
        rcases hstab₂ u d' hd' with h | h | ⟨rfl, rfl⟩
        · exact Or.inl h
        · exact Or.inr h
        · refine Or.inl ?_
          intro row' hrow' e he
          rw [hadjread] at hrow'
          obtain rfl : adj[s.position] = row' := by injection hrow'
          exact hrow6 e he
      refine ih ⟨by omega, ?_, ?_, hsound₂, hstab₃, ?_⟩ hrun
      · intro t ht
        rcases hchar₂ t ht with htr | ⟨e, he, -, hp, -⟩
        · exact hpos t (heapPop_rest_subset hpop t htr)
        · rw [hp]
          exact hwf s.position _ hadjread e he
      · intro t ht
        rcases hchar₂ t ht with htr | ⟨e, he, -, -, hv⟩
        · obtain ⟨dt, hdt, hdtc⟩ := hkey t (heapPop_rest_subset hpop t htr)
          obtain ⟨v₂, hv₂, hlev₂⟩ := hle₂ t.position dt hdt
          exact ⟨v₂, hv₂, by omega⟩
        · exact hv
      · obtain ⟨d₀, hd₀, hd₀le⟩ := hstart
        obtain ⟨v₂, hv₂, hlev₂⟩ := hle₂ start d₀ hd₀
        exact ⟨v₂, hv₂, by omega⟩

/-! ## The Dijkstra main loop: termination -/

/-- With non-negative weights the loop terminates: tracking the (ghost) set
`P` of settled vertices, each iteration either discards a stale entry or
settles a new vertex, so `heap.length` plus the out-degrees of unsettled
vertices strictly decreases. -/
theorem dijkstraLoop_term {adj : List (List Edge)} (hwf : AdjWF adj)
    (hgw : NonNegW adj) :
    ∀ (fuel : Nat) (dist : List (Option Int)) (heap : List State)
      (P : Finset Nat),
      dist.length = adj.length →
      (∀ s ∈ heap, s.position < adj.length) →
      (∀ s ∈ heap, ∃ d, getO dist s.position = some d ∧ d ≤ s.cost) →
      (∀ x ∈ P, ∃ d, getO dist x = some d ∧ StableAt adj dist x d ∧
        ∀ s ∈ heap, d ≤ s.cost) →
      heap.length + ∑ x ∈ Finset.range adj.length \ P,
        (adj.getD x []).length < fuel →
      ∃ res, dijkstraLoop adj fuel dist heap = some res := by
  intro fuel
  induction fuel with
  | zero =>
    intro dist heap P _ _ _ _ hm
    omega
  | succ fuel ih =>
    intro dist heap P hlen hpos hkey hP hm
    rw [dijkstraLoop]
    rcases hpop : heapPop heap with _ | sr
    · simp only [hpop]
      exact ⟨dist, rfl⟩
    obtain ⟨s, rest⟩ := sr
    simp only [hpop]
    have hsmem := heapPop_mem hpop
    have hrsub := heapPop_rest_subset hpop
    have hhlen := heapPop_length hpop
    have hmin := heapPop_min_cost hpop
    have hspos : s.position < adj.length := hpos s hsmem
    obtain ⟨d, hd, hdc⟩ := hkey s hsmem
    have hread : dist[s.position]? = some (some d) := by
      rw [List.getElem?_eq_getElem (by omega), ← getO_eq_getElem (by omega), hd]
    simp only [hread]
    split
    · -- stale pop: the heap shrinks, nothing else changes
      refine ih dist rest P hlen (fun t ht => hpos t (hrsub t ht))
        (fun t ht => hkey t (hrsub t ht)) ?_ (by omega)
      intro x hx
      obtain ⟨dx, hdx, hstx, hallx⟩ := hP x hx
      exact ⟨dx, hdx, hstx, fun t ht => hallx t (hrsub t ht)⟩
    · -- fresh pop
      rename_i hfresh
      have hceq : s.cost = d := by
        simp only [decide_eq_true_eq] at hfresh
        omega
      simp only [List.getElem?_eq_getElem hspos]
      have hrowb : ∀ e ∈ adj[s.position], e.to' < dist.length := by
        intro e he
        have := hwf s.position adj[s.position]
          (List.getElem?_eq_getElem hspos) e he
        omega
      have hroww : ∀ e ∈ adj[s.position], 0 ≤ e.weight :=
        fun e he => hgw s.position _ (List.getElem?_eq_getElem hspos) e he
      have hgetd : adj.getD s.position [] = adj[s.position] := by
        rw [List.getD_eq_getElem?_getD, List.getElem?_eq_getElem hspos]
        rfl
      by_cases hxP : s.position ∈ P
      · -- already settled: relaxation is a no-op
        obtain ⟨d', hd', hstable, -⟩ := hP _ hxP
        have hdd : d' = d := by
          rw [hd] at hd'
          injection hd' with h
          exact h.symm
        have hnoop : dijkstraRelax s.cost adj[s.position] dist rest =
            some (dist, rest) := by
          refine dijkstraRelax_noop ?_ hrowb
          intro e he
          obtain ⟨d₂, hd₂, hled₂⟩ :=
            hstable adj[s.position] (List.getElem?_eq_getElem hspos) e he
          exact ⟨d₂, hd₂, by omega⟩
        rw [hnoop]
        refine ih dist rest P hlen (fun t ht => hpos t (hrsub t ht))
          (fun t ht => hkey t (hrsub t ht)) ?_ (by omega)
        intro x hx
        obtain ⟨dx, hdx, hstx, hallx⟩ := hP x hx
        exact ⟨dx, hdx, hstx, fun t ht => hallx t (hrsub t ht)⟩
      · -- settle `s.position`
        obtain ⟨out, hout⟩ := dijkstraRelax_total hrowb
        obtain ⟨dist₂, heap₂⟩ := out
        rw [hout]
        obtain ⟨hl₂, hle₂, hsub₂, hchar₂, hrow6, hfix₂, hlen₂⟩ :=
          dijkstraRelax_spec hroww hout
        have hxval : getO dist₂ s.position = some s.cost := by
          apply hfix₂ s.position s.cost
          · rw [hd, hceq]
          · exact le_refl _
        have hxin : s.position ∈ Finset.range adj.length \ P := by
          rw [Finset.mem_sdiff, Finset.mem_range]
          exact ⟨hspos, hxP⟩
        have hsdiff : Finset.range adj.length \ insert s.position P =
            (Finset.range adj.length \ P).erase s.position := by
          ext y
          simp only [Finset.mem_sdiff, Finset.mem_insert, Finset.mem_erase,
            Finset.mem_range]
          tauto
        have hsum := Finset.sum_erase_add (Finset.range adj.length \ P)
          (fun x => (adj.getD x []).length) hxin
        refine ih dist₂ heap₂ (insert s.position P) (by omega) ?_ ?_ ?_ ?_
        · intro t ht
          rcases hchar₂ t ht with htr | ⟨e, he, -, hp, -⟩
          · exact hpos t (hrsub t htr)
          · rw [hp]
            exact hwf s.position _ (List.getElem?_eq_getElem hspos) e he
        · intro t ht
          rcases hchar₂ t ht with htr | ⟨e, he, -, -, hv⟩
          · obtain ⟨dt, hdt, hdtc⟩ := hkey t (hrsub t htr)
            obtain ⟨v₂, hv₂, hlev₂⟩ := hle₂ t.position dt hdt
            exact ⟨v₂, hv₂, by omega⟩
          · exact hv
        · intro x hx
          rcases Finset.mem_insert.mp hx with rfl | hx'
          · refine ⟨s.cost, hxval, ?_, ?_⟩
            · intro row' hrow' e he
              rw [List.getElem?_eq_getElem hspos] at hrow'
              obtain rfl : adj[s.position] = row' := by injection hrow'
              exact hrow6 e he
            · intro t ht
              rcases hchar₂ t ht with htr | ⟨e, he, hc, -, -⟩
              · exact hmin t (hrsub t htr)
              · have := hroww e he
                omega
          · obtain ⟨dx, hdx, hstx, hallx⟩ := hP x hx'
            have hdxc : dx ≤ s.cost := hallx s hsmem
            have hdx₂ : getO dist₂ x = some dx := hfix₂ x dx hdx hdxc
            refine ⟨dx, hdx₂, stableAt_mono hstx hle₂, ?_⟩
            intro t ht
            rcases hchar₂ t ht with htr | ⟨e, he, hc, -, -⟩
            · exact hallx t (hrsub t htr)
            · have := hroww e he
              omega
        · rw [hsdiff]
          have hsum' : (∑ x ∈ (Finset.range adj.length \ P).erase s.position,
              (adj.getD x []).length) + (adj.getD s.position []).length =
              ∑ x ∈ Finset.range adj.length \ P, (adj.getD x []).length := hsum
          rw [hgetd] at hsum'
          omega

/-! ## Dijkstra: top-level correctness -/

theorem getO_replicate {n i : Nat} :
    getO (List.replicate n (none : Option Int)) i = none := by
  rw [getO, List.getD_eq_getElem?_getD, List.getElem?_replicate]
  split <;> rfl

theorem edgeCount_eq_sum (adj : List (List Edge)) :
    ∑ x ∈ Finset.range adj.length, (adj.getD x []).length = edgeCount adj := by
  induction adj with
  | nil => simp [edgeCount]
  | cons r rs ih =>
    rw [List.length_cons, Finset.sum_range_succ']
    simp only [List.getD_cons_succ, List.getD_cons_zero]
    rw [ih]
    simp [edgeCount]
    omega

/-- `dijkstra` terminates (within its fuel) on a well-formed non-negative
graph and its result satisfies the final invariant. -/
theorem dijkstra_correct {adj : List (List Edge)} {start : Nat}
    (hwf : AdjWF adj) (hgw : NonNegW adj) (hstart : start < adj.length) :
    ∃ res, dijkstra adj start = some res ∧ DInvP adj start res [] := by
  rw [dijkstra]
  simp only [if_pos hstart]
  have hlen₀ : ((List.replicate adj.length (none : Option Int)).set start
      (some 0)).length = adj.length := by
    rw [List.length_set, List.length_replicate]
  have hstart₀ : getO ((List.replicate adj.length (none : Option Int)).set
      start (some 0)) start = some 0 :=
    getO_set_self _ (by rw [List.length_replicate]; exact hstart)
  have hother₀ : ∀ i, start ≠ i →
      getO ((List.replicate adj.length (none : Option Int)).set start
        (some 0)) i = none := by
    intro i hne
    rw [getO_set_other _ hne, getO_replicate]
  have hinv : DInvP adj start
      ((List.replicate adj.length (none : Option Int)).set start (some 0))
      [⟨0, start⟩] := by
    refine ⟨hlen₀, ?_, ?_, ?_, ?_, 0, hstart₀, le_refl 0⟩
    · intro s hs
      obtain rfl : s = ⟨0, start⟩ := List.mem_singleton.mp hs
      exact hstart
    · intro s hs
      obtain rfl : s = ⟨0, start⟩ := List.mem_singleton.mp hs
      exact ⟨0, hstart₀, le_refl 0⟩
    · intro i d hd
      by_cases hie : start = i
      · subst hie
        rw [hstart₀] at hd
        obtain rfl : (0 : Int) = d := by injection hd
        exact ⟨[], rfl, rfl⟩
      · rw [hother₀ i hie] at hd
        exact absurd hd (by simp)
    · intro u d hd
      by_cases hue : start = u
      · subst hue
        rw [hstart₀] at hd
        obtain rfl : (0 : Int) = d := by injection hd
        exact Or.inr (List.mem_singleton.mpr rfl)
      · rw [hother₀ u hue] at hd
        exact absurd hd (by simp)
  obtain ⟨res, hres⟩ := dijkstraLoop_term hwf hgw (edgeCount adj + 2)
    ((List.replicate adj.length (none : Option Int)).set start (some 0))
    [⟨0, start⟩] ∅ hlen₀
    (by
      intro s hs
      obtain rfl : s = ⟨0, start⟩ := List.mem_singleton.mp hs
      exact hstart)
    (by
      intro s hs
      obtain rfl : s = ⟨0, start⟩ := List.mem_singleton.mp hs
      exact ⟨0, hstart₀, le_refl 0⟩)
    (by simp)
    (by
      rw [Finset.sdiff_empty, edgeCount_eq_sum]
      simp only [List.length_singleton]
      omega)
  exact ⟨res, hres, dijkstraLoop_partial hwf hgw hinv hres⟩

/-- Telescoping stability along a walk. -/
theorem dinv_stable_walk {adj : List (List Edge)} {dist : List (Option Int)}
    (hstab : ∀ u d, getO dist u = some d → StableAt adj dist u d) :
    ∀ (l : List (Nat × Int)) (a i : Nat) (da : Int),
      chainW (adjRel adj) a l i → getO dist a = some da →
      ∃ di, getO dist i = some di ∧ di ≤ da + walkWeight l := by
  intro l
  induction l with
  | nil =>
    intro a i da hch hda
    cases hch
    exact ⟨da, hda, by rw [walkWeight_nil]; omega⟩
  | cons s rest ih =>
    intro a i da hch hda
    obtain ⟨⟨row, hrow, hmem⟩, hc⟩ := hch
    obtain ⟨d₂, hd₂, hled₂⟩ := hstab a da hda row hrow ⟨s.1, s.2⟩ hmem
    obtain ⟨di, hdi, hledi⟩ := ih s.1 i d₂ hc hd₂
    refine ⟨di, hdi, ?_⟩
    rw [walkWeight_cons]
    simp only at hled₂
    omega

/-- The final distance vector of Dijkstra records exactly the shortest walk
weights from `start`, and `none` exactly for unreachable vertices. -/
theorem dijkstra_final {adj : List (List Edge)} {start : Nat}
    (hgw : NonNegW adj) {dist : List (Option Int)}
    (hinv : DInvP adj start dist []) :
    dist.length = adj.length ∧
    (∀ i d, getO dist i = some d →
      (∃ l, chainW (adjRel adj) start l i ∧ walkWeight l = d) ∧
      (∀ l, chainW (adjRel adj) start l i → d ≤ walkWeight l)) ∧
    (∀ i, getO dist i = none → ∀ l, ¬ chainW (adjRel adj) start l i) := by
  obtain ⟨hlen, -, -, hsound, hstab, hstart⟩ := hinv
  have hstab' : ∀ u d, getO dist u = some d → StableAt adj dist u d := by
    intro u d hd
    rcases hstab u d hd with h | h
    · exact h
    · exact absurd h (List.not_mem_nil _)
  obtain ⟨d₀, hd₀, hd₀le⟩ := hstart
  have hd₀0 : d₀ = 0 := by
    obtain ⟨l, hl, hw⟩ := hsound start d₀ hd₀
    have := walkWeight_nonneg hgw hl
    omega
  subst hd₀0
  refine ⟨hlen, ?_, ?_⟩
  · intro i d hd
    refine ⟨hsound i d hd, ?_⟩
    intro l hl
    obtain ⟨di, hdi, hledi⟩ := dinv_stable_walk hstab' l start i 0 hl hd₀
    rw [hd] at hdi
    obtain rfl : d = di := by injection hdi
    omega
  · intro i hnone l hl
    obtain ⟨di, hdi, -⟩ := dinv_stable_walk hstab' l start i 0 hl hd₀
    rw [hnone] at hdi
    exact absurd hdi (by simp)

/-! ## The reweighted graph -/

theorem reweightRow_total {h : List Int} {u : Nat} :
    ∀ (row : List Edge), (∀ e ∈ row, e.to' < h.length) → u < h.length →
      ∃ r, reweightRow h u row = some r := by
  intro row
  induction row with
  | nil => exact fun _ _ => ⟨[], rfl⟩
  | cons e rest ih =>
    intro hto hu
    have hte : e.to' < h.length := hto e (List.mem_cons_self ..)
    obtain ⟨r, hr⟩ := ih (fun e' he' => hto e' (List.mem_cons_of_mem _ he')) hu
    refine ⟨⟨e.to', e.weight + h[u] - h[e.to']⟩ :: r, ?_⟩
    rw [reweightRow, List.getElem?_eq_getElem hu,
      List.getElem?_eq_getElem hte, hr]

theorem reweightAll_total {adj : List (List Edge)} {h : List Int}
    (hwf : AdjWF adj) (hh : h.length = adj.length) :
    ∀ (us : List Nat), (∀ u ∈ us, u < adj.length) →
      ∃ radj, reweightAll adj h us = some radj := by
  intro us
  induction us with
  | nil => exact fun _ => ⟨[], rfl⟩
  | cons u us ih =>
    intro hus
    have hu : u < adj.length := hus u (List.mem_cons_self ..)
    obtain ⟨r, hr⟩ := reweightRow_total (h := h) (u := u) adj[u]
      (fun e he => by
        have := hwf u adj[u] (List.getElem?_eq_getElem hu) e he
        omega)
      (by omega)
    obtain ⟨radj, hradj⟩ := ih (fun u' hu' => hus u' (List.mem_cons_of_mem _ hu'))
    refine ⟨r :: radj, ?_⟩
    simp only [reweightAll, List.getElem?_eq_getElem hu, hr, hradj]

theorem reweightAll_spec {adj : List (List Edge)} {h : List Int} :
    ∀ {us : List Nat} {radj : List (List Edge)},
      reweightAll adj h us = some radj →
      radj.length = us.length ∧
      ∀ (i : Nat) (r : List Edge), radj[i]? = some r →
        ∃ u row, us[i]? = some u ∧ adj[u]? = some row ∧
          reweightRow h u row = some r := by
  intro us
  induction us with
  | nil =>
    intro radj hrun
    simp only [reweightAll, Option.some.injEq] at hrun
    subst hrun
    exact ⟨rfl, by simp⟩
  | cons u us ih =>
    intro radj hrun
    rw [reweightAll] at hrun
    split at hrun
    · exact absurd hrun (by simp)
    rename_i row hrow
    split at hrun
    · rename_i r rs hr hrs
      simp only [Option.some.injEq] at hrun
      subst hrun
      obtain ⟨hlen, hspec⟩ := ih hrs
      refine ⟨by simp [hlen], ?_⟩
      intro i r' hr'
      cases i with
      | zero =>
        simp only [List.getElem?_cons_zero, Option.some.injEq] at hr'
        subst hr'
        exact ⟨u, row, by simp, hrow, hr⟩
      | succ i =>
        simp only [List.getElem?_cons_succ] at hr' ⊢
        exact hspec i r' hr'
    · exact absurd hrun (by simp)

theorem reweightRow_fwd {h : List Int} {u : Nat} :
    ∀ {row r : List Edge}, reweightRow h u row = some r →
      ∀ e ∈ row, ∃ hu hv, h[u]? = some hu ∧ h[e.to']? = some hv ∧
        Edge.mk e.to' (e.weight + hu - hv) ∈ r := by
  intro row
  induction row with
  | nil => intro r _ e he; exact absurd he (List.not_mem_nil _)
  | cons e rest ih =>
    intro r hrun e' he'
    rw [reweightRow] at hrun
    split at hrun
    · rename_i hu hv heq₁ heq₂
      split at hrun
      · rename_i r₀ hr₀
        simp only [Option.some.injEq] at hrun
        subst hrun
        rcases List.mem_cons.mp he' with rfl | he'
        · exact ⟨hu, hv, heq₁, heq₂, List.mem_cons_self ..⟩
        · obtain ⟨hu', hv', h₁, h₂, h₃⟩ := ih hr₀ e' he'
          exact ⟨hu', hv', h₁, h₂, List.mem_cons_of_mem _ h₃⟩
      · exact absurd hrun (by simp)
    · exact absurd hrun (by simp)

/-- The reweighted adjacency list realises exactly the edges of the
original graph with weights shifted by the potentials. -/
theorem radjRel {n : Nat} {adj radj : List (List Edge)} {h : List Int}
    (hlen : adj.length = n)
    (hradj : reweightAll adj h (List.range n) = some radj) :
    ∀ a b w', adjRel radj a b w' ↔
      ∃ w, adjRel adj a b w ∧ w' = w + getI h a - getI h b := by
  obtain ⟨hrl, hspec⟩ := reweightAll_spec hradj
  have hrlen : radj.length = n := by rw [hrl, List.length_range]
  intro a b w'
  constructor
  · rintro ⟨r, hr, hmem⟩
    have ha : a < n := by
      have := (List.getElem?_eq_some.mp hr).1
      omega
    obtain ⟨u, row, hu, hrow, hrw⟩ := hspec a r hr
    rw [List.getElem?_range ha] at hu
    obtain rfl : a = u := by injection hu
    obtain ⟨e, he, hu', hv', h₁, h₂, h₃⟩ := reweightRow_mem hrw _ hmem
    have hb : b = e.to' := congrArg Edge.to' h₃
    have hw : w' = e.weight + hu' - hv' := congrArg Edge.weight h₃
    refine ⟨e.weight, ⟨row, hrow, ?_⟩, ?_⟩
    · rw [hb]
      exact he
    · rw [hw, getI_eq h₁, hb, getI_eq h₂]
  · rintro ⟨w, ⟨row, hrow, hmem⟩, rfl⟩
    have ha : a < n := by
      have := (List.getElem?_eq_some.mp hrow).1
      omega
    have hra : radj[a]? = some radj[a] := List.getElem?_eq_getElem (by omega)
    obtain ⟨u, row', hu, hrow', hrw⟩ := hspec a radj[a] hra
    rw [List.getElem?_range ha] at hu
    obtain rfl : a = u := by injection hu
    rw [hrow] at hrow'
    obtain rfl : row = row' := by injection hrow'
    obtain ⟨hu', hv', h₁, h₂, h₃⟩ := reweightRow_fwd hrw (Edge.mk b w) hmem
    refine ⟨radj[a], hra, ?_⟩
    rw [getI_eq h₁, getI_eq h₂]
    simpa using h₃

theorem radj_length {n : Nat} {adj radj : List (List Edge)} {h : List Int}
    (hradj : reweightAll adj h (List.range n) = some radj) :
    radj.length = n := by
  obtain ⟨hrl, -⟩ := reweightAll_spec hradj
  rw [hrl, List.length_range]

theorem radj_wf {n : Nat} {adj radj : List (List Edge)} {h : List Int}
    (hlen : adj.length = n) (hwf : AdjWF adj)
    (hradj : reweightAll adj h (List.range n) = some radj) : AdjWF radj := by
  intro u row' hrow' e' he'
  have hrel : adjRel radj u e'.to' e'.weight := ⟨row', hrow', he'⟩
  obtain ⟨w, ⟨row, hrow, hmem⟩, -⟩ := (radjRel hlen hradj ..).mp hrel
  have h₂ : e'.to' < adj.length := by simpa using hwf _ row hrow _ hmem
  rw [radj_length hradj]
  omega

theorem radj_nonneg {n : Nat} {adj radj : List (List Edge)} {h : List Int}
    (hlen : adj.length = n) (hfix : BFFix adj n h)
    (hradj : reweightAll adj h (List.range n) = some radj) :
    NonNegW radj := by
  intro u row' hrow' e' he'
  have hrel : adjRel radj u e'.to' e'.weight := ⟨row', hrow', he'⟩
  obtain ⟨w, ⟨row, hrow, hmem⟩, hw⟩ := (radjRel hlen hradj ..).mp hrel
  have hu : u < n := by
    have := (List.getElem?_eq_some.mp hrow).1
    omega
  obtain ⟨row₀, hrow₀, hbnd⟩ := hfix u hu
  rw [hrow] at hrow₀
  obtain rfl : row = row₀ := by injection hrow₀
  obtain ⟨-, hr⟩ := hbnd _ hmem
  simp only at hr
  omega

/-- Shift a walk of the original graph into the reweighted graph. -/
theorem walk_shift_fwd {n : Nat} {adj radj : List (List Edge)} {h : List Int}
    (hlen : adj.length = n)
    (hradj : reweightAll adj h (List.range n) = some radj) :
    ∀ (l : List (Nat × Int)) (a b : Nat), chainW (adjRel adj) a l b →
      ∃ l', chainW (adjRel radj) a l' b ∧
        walkWeight l' = walkWeight l + getI h a - getI h b := by
  intro l
  induction l with
  | nil =>
    intro a b hch
    cases hch
    exact ⟨[], rfl, by rw [walkWeight_nil]; omega⟩
  | cons s rest ih =>
    intro a b hch
    obtain ⟨he, hc⟩ := hch
    obtain ⟨l'', hc'', hw''⟩ := ih s.1 b hc
    refine ⟨(s.1, s.2 + getI h a - getI h s.1) :: l'', ⟨?_, hc''⟩, ?_⟩
    · exact (radjRel hlen hradj ..).mpr ⟨s.2, he, rfl⟩
    · rw [walkWeight_cons, walkWeight_cons]
      simp only
      omega

/-- Shift a walk of the reweighted graph back to the original graph. -/
theorem walk_shift_bwd {n : Nat} {adj radj : List (List Edge)} {h : List Int}
    (hlen : adj.length = n)
    (hradj : reweightAll adj h (List.range n) = some radj) :
    ∀ (l' : List (Nat × Int)) (a b : Nat), chainW (adjRel radj) a l' b →
      ∃ l, chainW (adjRel adj) a l b ∧
        walkWeight l = walkWeight l' - getI h a + getI h b := by
  intro l'
  induction l' with
  | nil =>
    intro a b hch
    cases hch
    exact ⟨[], rfl, by rw [walkWeight_nil]; omega⟩
  | cons s rest ih =>
    intro a b hch
    obtain ⟨he, hc⟩ := hch
    obtain ⟨w, hadj, hw⟩ := (radjRel hlen hradj ..).mp he
    obtain ⟨l'', hc'', hw''⟩ := ih s.1 b hc
    refine ⟨(s.1, w) :: l'', ⟨hadj, hc''⟩, ?_⟩
    rw [walkWeight_cons, walkWeight_cons]
    simp only
    omega

/-! ## Un-reweighting and the per-source rows -/

theorem getD_of_lt {α : Type} (l : List α) (dflt : α) {i : Nat}
    (h : i < l.length) : l.getD i dflt = l[i] := by
  rw [List.getD_eq_getElem?_getD, List.getElem?_eq_getElem h]
  rfl

theorem unReweight_total (h : List Int) (u : Nat) (dPrime : List (Option Int))
    (hu : u < h.length) :
    ∀ (vs : List Nat), (∀ v ∈ vs, v < dPrime.length) →
      (∀ v ∈ vs, v < h.length) →
      ∃ out, unReweight h u dPrime vs = some out := by
  intro vs
  induction vs with
  | nil => exact fun _ _ => ⟨[], rfl⟩
  | cons v vs ih =>
    intro hd hh
    have hv : v < dPrime.length := hd v (List.mem_cons_self ..)
    have hvh : v < h.length := hh v (List.mem_cons_self ..)
    obtain ⟨out, hout⟩ := ih (fun v' hv' => hd v' (List.mem_cons_of_mem _ hv'))
      (fun v' hv' => hh v' (List.mem_cons_of_mem _ hv'))
    rcases hent : dPrime[v] with _ | dd
    · refine ⟨none :: out, ?_⟩
      simp only [unReweight, List.getElem?_eq_getElem hv, hent, hout]
    · refine ⟨some (dd - h[u] + h[v]) :: out, ?_⟩
      simp only [unReweight, List.getElem?_eq_getElem hv, hent,
        List.getElem?_eq_getElem hu, List.getElem?_eq_getElem hvh, hout]

theorem unReweight_spec {h : List Int} {u : Nat}
    {dPrime : List (Option Int)} :
    ∀ {vs : List Nat} {out : List (Option Int)},
      unReweight h u dPrime vs = some out →
      out.length = vs.length ∧
      ∀ (i : Nat) (r : Option Int), out[i]? = some r →
        ∃ v, vs[i]? = some v ∧ ∃ entry, dPrime[v]? = some entry ∧
          ((entry = none ∧ r = none) ∨
            ∃ dd hu' hv', entry = some dd ∧ h[u]? = some hu' ∧
              h[v]? = some hv' ∧ r = some (dd - hu' + hv')) := by
  intro vs
  induction vs with
  | nil =>
    intro out hrun
    simp only [unReweight, Option.some.injEq] at hrun
    subst hrun
    exact ⟨rfl, by simp⟩
  | cons v vs ih =>
    intro out hrun
    rw [unReweight] at hrun
    split at hrun
    · exact absurd hrun (by simp)
    rename_i entry hent
    split at hrun
    · -- entry = some dd
      rename_i dd
      rcases hqu : h[u]? with _ | hu'
      · rw [hqu] at hrun
        exact absurd hrun (by simp)
      rcases hqv : h[v]? with _ | hv'
      · rw [hqu, hqv] at hrun
        exact absurd hrun (by simp)
      rw [hqu, hqv] at hrun
      rw [← hqu]
      simp only [] at hrun
      split at hrun
      · rename_i r₀ hr₀
        simp only [Option.some.injEq] at hrun
        subst hrun
        obtain ⟨hlen, hspec⟩ := ih hr₀
        refine ⟨by simp [hlen], ?_⟩
        intro i r hr
        cases i with
        | zero =>
          simp only [List.getElem?_cons_zero, Option.some.injEq] at hr
          subst hr
          exact ⟨v, by simp, some dd, hent,
            Or.inr ⟨dd, hu', hv', rfl, hqu, hqv, rfl⟩⟩
        | succ i =>
          simp only [List.getElem?_cons_succ] at hr ⊢
          exact hspec i r hr
      · exact absurd hrun (by simp)
    · -- entry = none
      split at hrun
      · rename_i r₀ hr₀
        simp only [Option.some.injEq] at hrun
        subst hrun
        obtain ⟨hlen, hspec⟩ := ih hr₀
        refine ⟨by simp [hlen], ?_⟩
        intro i r hr
        cases i with
        | zero =>
          simp only [List.getElem?_cons_zero, Option.some.injEq] at hr
          subst hr
          exact ⟨v, by simp, none, hent, Or.inl ⟨rfl, rfl⟩⟩
        | succ i =>
          simp only [List.getElem?_cons_succ] at hr ⊢
          exact hspec i r hr
      · exact absurd hrun (by simp)

theorem apspRows_total {radj : List (List Edge)} {h : List Int} {n : Nat}
    (hrlen : radj.length = n) (hh : h.length = n)
    (hwf : AdjWF radj) (hgw : NonNegW radj) :
    ∀ (us : List Nat), (∀ u ∈ us, u < n) →
      ∃ m, apspRows radj h n us = some m := by
  intro us
  induction us with
  | nil => exact fun _ => ⟨[], rfl⟩
  | cons u us ih =>
    intro hus
    have hu : u < n := hus u (List.mem_cons_self ..)
    obtain ⟨dP, hdP, hinv⟩ := dijkstra_correct hwf hgw
      (show u < radj.length by omega)
    have hdPlen : dP.length = n := by
      obtain ⟨hl, -⟩ := hinv
      omega
    obtain ⟨row, hrow⟩ := unReweight_total h u dP (by omega) (List.range n)
      (fun v hv => by rw [hdPlen]; exact List.mem_range.mp hv)
      (fun v hv => by rw [hh]; exact List.mem_range.mp hv)
    obtain ⟨m, hm⟩ := ih (fun u' hu' => hus u' (List.mem_cons_of_mem _ hu'))
    refine ⟨row :: m, ?_⟩
    simp only [apspRows, hdP, hrow, hm]

theorem apspRows_spec {radj : List (List Edge)} {h : List Int} {n : Nat} :
    ∀ {us : List Nat} {m : List (List (Option Int))},
      apspRows radj h n us = some m →
      m.length = us.length ∧
      ∀ (i : Nat) (r : List (Option Int)), m[i]? = some r →
        ∃ u, us[i]? = some u ∧ ∃ dP, dijkstra radj u = some dP ∧
          unReweight h u dP (List.range n) = some r := by
  intro us
  induction us with
  | nil =>
    intro m hrun
    simp only [apspRows, Option.some.injEq] at hrun
    subst hrun
    exact ⟨rfl, by simp⟩
  | cons u us ih =>
    intro m hrun
    rw [apspRows] at hrun
    split at hrun
    · exact absurd hrun (by simp)
    rename_i dP hdP
    split at hrun
    · rename_i row rows hrow hrows
      simp only [Option.some.injEq] at hrun
      subst hrun
      obtain ⟨hlen, hspec⟩ := ih hrows
      refine ⟨by simp [hlen], ?_⟩
      intro i r hr
      cases i with
      | zero =>
        simp only [List.getElem?_cons_zero, Option.some.injEq] at hr
        subst hr
        exact ⟨u, by simp, dP, hdP, hrow⟩
      | succ i =>
        simp only [List.getElem?_cons_succ] at hr ⊢
        exact hspec i r hr
    · exact absurd hrun (by simp)

/-! ## Johnson's algorithm: the full matrix specification -/

/-- Master theorem: when Bellman-Ford succeeds on a well-formed input,
`johnsons_algorithm` returns `Ok` with an `n × n` matrix whose entries are
exactly the shortest-path distances of the input graph, with `none` exactly
at unreachable pairs. -/
theorem johnsons_matrix_spec (num_nodes : Nat)
    (edges : List (Nat × Nat × Int)) (hval : ValidEdges num_nodes edges)
    {adj : List (List Edge)} {h : List Int}
    (hb : buildAdj edges (List.replicate num_nodes []) = some adj)
    (hbf : bellman_ford adj num_nodes = some (some h)) :
    ∃ M, johnsons_algorithm num_nodes edges = some (Except.ok M) ∧
      M.length = num_nodes ∧ (∀ row ∈ M, row.length = num_nodes) ∧
      ∀ u v, u < num_nodes → v < num_nodes →
        ((∀ d, mEntry M u v = some d → ShortestDist edges u v d) ∧
          (mEntry M u v = none ↔ ¬ Reachable edges u v)) := by
  have hlen : adj.length = num_nodes := builtAdj_length hb
  have hwf : AdjWF adj := builtAdj_wf hval hb
  obtain ⟨hhlen, hnp, hfix⟩ := bellman_ford_success hbf
  obtain ⟨radj, hradj⟩ := reweightAll_total hwf
    (show h.length = adj.length by omega) (List.range num_nodes)
    (fun u hu => by rw [hlen]; exact List.mem_range.mp hu)
  have hrlen : radj.length = num_nodes := radj_length hradj
  have hrwf : AdjWF radj := radj_wf hlen hwf hradj
  have hrnn : NonNegW radj := radj_nonneg hlen hfix hradj
  obtain ⟨M, hM⟩ := apspRows_total hrlen
    (show h.length = num_nodes by omega) hrwf hrnn
    (List.range num_nodes) (fun u hu => List.mem_range.mp hu)
  have hjo : johnsons_algorithm num_nodes edges = some (Except.ok M) := by
    simp only [johnsons_algorithm, hb, hbf, hradj, hM]
  obtain ⟨hMlen', hMspec⟩ := apspRows_spec hM
  have hMlen : M.length = num_nodes := by rw [hMlen', List.length_range]
  have hrel := builtAdj_rel hb
  refine ⟨M, hjo, hMlen, ?_, ?_⟩
  · intro row hrow
    obtain ⟨i, hi⟩ := List.mem_iff_getElem?.mp hrow
    obtain ⟨u, -, dP, -, hunr⟩ := hMspec i row hi
    obtain ⟨hrowlen, -⟩ := unReweight_spec hunr
    rw [hrowlen, List.length_range]
  · intro u v hu hv
    have hMu : M[u]? = some M[u] := List.getElem?_eq_getElem (by omega)
    obtain ⟨u', hu', dP, hdP, hunr⟩ := hMspec u M[u] hMu
    rw [List.getElem?_range hu] at hu'
    obtain rfl : u = u' := by injection hu'
    obtain ⟨hrowlen, hrspec⟩ := unReweight_spec hunr
    have hrowl : M[u].length = num_nodes := by
      rw [hrowlen, List.length_range]
    obtain ⟨dP₀, hdP₀, hinv₀⟩ := dijkstra_correct hrwf hrnn
      (show u < radj.length by omega)
    rw [hdP] at hdP₀
    obtain rfl : dP = dP₀ := by injection hdP₀
    obtain ⟨hfinlen, hfin_some, hfin_none⟩ := dijkstra_final hrnn hinv₀
    have hb1 : u < M.length := by omega
    have hb2 : v < M[u].length := by omega
    have hment : mEntry M u v = M[u][v] := by
      have h1 : M.getD u [] = M[u] := getD_of_lt M [] hb1
      have h2 : M[u].getD v none = M[u][v] := getD_of_lt M[u] none hb2
      rw [mEntry, h1, h2]
    have hrv : M[u][v]? = some M[u][v] := List.getElem?_eq_getElem hb2
    obtain ⟨v', hv', entry, hentry, hcases⟩ := hrspec v M[u][v] hrv
    rw [List.getElem?_range hv] at hv'
    obtain rfl : v = v' := by injection hv'
    have hentry' : getO dP v = entry := getO_eq hentry
    rcases hcases with ⟨hnone, hrnone⟩ | ⟨dd, hu'', hv'', hentsome, hq1, hq2, hrsome⟩
    · have hgv : getO dP v = none := by rw [hentry', hnone]
      have hnor := hfin_none v hgv
      have hmnone : mEntry M u v = none := by rw [hment, hrnone]
      constructor
      · intro d hd
        rw [hmnone] at hd
        exact absurd hd (by simp)
      · refine iff_of_true hmnone ?_
        rintro ⟨l, hl⟩
        have hladj : chainW (adjRel adj) u l v := (chainW_congr hrel).mpr hl
        obtain ⟨l', hl', -⟩ := walk_shift_fwd hlen hradj l u v hladj
        exact hnor l' hl'
    · have hdd : getO dP v = some dd := by rw [hentry', hentsome]
      obtain ⟨⟨lr, hlr, hlw⟩, hmin⟩ := hfin_some v dd hdd
      have hq1' : getI h u = hu'' := getI_eq hq1
      have hq2' : getI h v = hv'' := getI_eq hq2
      have hmval : mEntry M u v = some (dd - hu'' + hv'') := by
        rw [hment, hrsome]
      have hexists : ∃ l, chainW (edgeRel edges) u l v ∧
          walkWeight l = dd - hu'' + hv'' := by
        obtain ⟨l, hlc, hlwt⟩ := walk_shift_bwd hlen hradj lr u v hlr
        refine ⟨l, (chainW_congr hrel).mp hlc, ?_⟩
        rw [hlwt, hlw, hq1', hq2']
      constructor
      · intro d hd
        rw [hmval] at hd
        obtain rfl : dd - hu'' + hv'' = d := by injection hd
        refine ⟨hexists, ?_⟩
        intro l hl
        have hladj : chainW (adjRel adj) u l v := (chainW_congr hrel).mpr hl
        obtain ⟨l', hl', hw'⟩ := walk_shift_fwd hlen hradj l u v hladj
        have := hmin l' hl'
        rw [hq1', hq2'] at hw'
        omega
      · refine iff_of_false (by rw [hmval]; simp) ?_
        intro hnR
        obtain ⟨l, hl, -⟩ := hexists
        exact hnR ⟨l, hl⟩

end APSP

namespace APSP

/-! ## Claims -/

/-- **C7**: on the example graph (3 vertices, edges
`(0,1,-5), (1,2,2), (2,0,4), (0,2,3)`), `johnsons_algorithm` returns `Ok`
with exactly the matrix the spec lists: entry `(0,1) = -5`, `(0,2) = -3`,
`(1,2) = 2`, `(2,0) = 4`, `(2,1) = -1`, `(1,0) = 6`, diagonal all `0`. -/
theorem claim_C7 :
    johnsons_algorithm 3 [(0, 1, -5), (1, 2, 2), (2, 0, 4), (0, 2, 3)] =
      some (Except.ok
        [[some 0, some (-5), some (-3)],
         [some 6, some 0, some 2],
         [some 4, some (-1), some 0]]) := by
  rfl

/-- **C8**: `johnsons_algorithm` is a pure, deterministic function of its
inputs: two runs on the same input yield the same result. -/
theorem claim_C8 (num_nodes : Nat) (edges : List (Nat × Nat × Int))
    (r₁ r₂ : Option (Except String (List (List (Option Int)))))
    (h₁ : johnsons_algorithm num_nodes edges = r₁)
    (h₂ : johnsons_algorithm num_nodes edges = r₂) : r₁ = r₂ :=
  h₁ ▸ h₂ ▸ rfl

/-- Witness for **C8** at the empty graph. -/
theorem claim_C8_witness :
    (some (Except.ok ([] : List (List (Option Int)))) :
        Option (Except String (List (List (Option Int))))) =
      some (Except.ok []) :=
  claim_C8 0 [] _ _ rfl rfl

/-- **C4**, counterexample: with two equal-cost entries the heap pops the
*larger* position first, not the smaller one as the claim states.  At cost
`0` and positions `0 < 1`, the smaller-position state compares `lt` (so the
max-heap yields the other one), and `heapPop` returns position `1` first. -/
theorem claim_C4_cex :
    State.cmp ⟨0, 0⟩ ⟨0, 1⟩ = Ordering.lt ∧
      heapPop [⟨0, 0⟩, ⟨0, 1⟩] ≠ some (⟨0, 0⟩, [⟨0, 1⟩]) ∧
      heapPop [⟨0, 0⟩, ⟨0, 1⟩] = some (⟨0, 1⟩, [⟨0, 0⟩]) := by
  refine ⟨rfl, ?_, rfl⟩
  decide

/-- **C4**, amended: ties between equal-cost entries are broken
deterministically by vertex index, but with the *higher* index popped first:
for equal costs the state with the smaller position compares `lt` under the
manual `Ord`, so the (max-)heap pop yields the larger position first,
whichever order the two entries occupy in the heap. -/
theorem claim_C4 (c : Int) (p q : Nat) (hpq : p < q) :
    State.cmp ⟨c, p⟩ ⟨c, q⟩ = Ordering.lt ∧
      heapPop [⟨c, p⟩, ⟨c, q⟩] = some (⟨c, q⟩, [⟨c, p⟩]) ∧
      heapPop [⟨c, q⟩, ⟨c, p⟩] = some (⟨c, q⟩, [⟨c, p⟩]) := by
  have hc : compare c c = Ordering.eq := compare_eq_iff_eq.mpr rfl
  have hcmp : State.cmp ⟨c, p⟩ ⟨c, q⟩ = Ordering.lt := by
    simp [State.cmp, hc, Ordering.then, Nat.compare_eq_lt.mpr hpq]
  have hcmp' : State.cmp ⟨c, q⟩ ⟨c, p⟩ ≠ Ordering.lt := by
    simp [State.cmp, hc, Ordering.then, Nat.compare_eq_gt.mpr hpq]
  refine ⟨hcmp, ?_, ?_⟩
  · simp [heapPop, popMaxAux, hcmp]
  · simp [heapPop, popMaxAux, hcmp']

/-- Witness for **C4** (amended) at cost `5`, positions `0 < 2`. -/
theorem claim_C4_witness :
    State.cmp ⟨5, 0⟩ ⟨5, 2⟩ = Ordering.lt ∧
      heapPop [⟨5, 0⟩, ⟨5, 2⟩] = some (⟨5, 2⟩, [⟨5, 0⟩]) ∧
      heapPop [⟨5, 2⟩, ⟨5, 0⟩] = some (⟨5, 2⟩, [⟨5, 0⟩]) :=
  claim_C4 5 0 2 (by decide)

/-- The empty edge list has no negative cycle. -/
theorem no_negcycle_nil : ¬ HasNegCycle ([] : List (Nat × Nat × Int)) := by
  rintro ⟨v, l, hne, hch, -⟩
  cases l with
  | nil => exact hne rfl
  | cons s rest => exact absurd hch.1 (List.not_mem_nil _)

/-- **C1**: for every vertex count and edge list with endpoints in range and
no negative cycle, `johnsons_algorithm` returns `Ok` with an `N × N` matrix
whose entry `(u, v)` is `some` of the shortest-path distance from `u` to `v`
under the original weights, and `none` exactly when no directed path from
`u` to `v` exists. -/
theorem claim_C1 (num_nodes : Nat) (edges : List (Nat × Nat × Int))
    (hval : ValidEdges num_nodes edges) (hnc : ¬ HasNegCycle edges) :
    ∃ M, johnsons_algorithm num_nodes edges = some (Except.ok M) ∧
      M.length = num_nodes ∧ (∀ row ∈ M, row.length = num_nodes) ∧
      ∀ u v, u < num_nodes → v < num_nodes →
        ((∀ d, mEntry M u v = some d → ShortestDist edges u v d) ∧
          (mEntry M u v = none ↔ ¬ Reachable edges u v)) := by
  obtain ⟨adj, hb⟩ := buildAdj_some edges (List.replicate num_nodes []) (by
    intro e he
    rw [List.length_replicate]
    exact (hval e he).1)
  have hlen := builtAdj_length hb
  have hwf := builtAdj_wf hval hb
  obtain ⟨res, hres⟩ := bellman_ford_total hlen hwf
  rcases res with _ | h
  · exact absurd
      ((builtAdj_negcycle_iff hb).mp (bellman_ford_none_negcycle hlen hwf hres))
      hnc
  · exact johnsons_matrix_spec num_nodes edges hval hb hres

/-- Witness for **C1** on the one-vertex empty graph. -/
theorem claim_C1_witness :
    ∃ M, johnsons_algorithm 1 [] = some (Except.ok M) ∧
      M.length = 1 ∧ (∀ row ∈ M, row.length = 1) ∧
      ∀ u v, u < 1 → v < 1 →
        ((∀ d, mEntry M u v = some d → ShortestDist [] u v d) ∧
          (mEntry M u v = none ↔ ¬ Reachable [] u v)) :=
  claim_C1 1 [] (by simp [ValidEdges]) no_negcycle_nil

/-- **C5**: on a well-formed input with no negative cycle, the matrix
returned by `johnsons_algorithm` has `some 0` at every diagonal entry. -/
theorem claim_C5 (num_nodes : Nat) (edges : List (Nat × Nat × Int))
    (hval : ValidEdges num_nodes edges) (hnc : ¬ HasNegCycle edges) :
    ∃ M, johnsons_algorithm num_nodes edges = some (Except.ok M) ∧
      ∀ v, v < num_nodes → mEntry M v v = some 0 := by
  obtain ⟨adj, hb⟩ := buildAdj_some edges (List.replicate num_nodes []) (by
    intro e he
    rw [List.length_replicate]
    exact (hval e he).1)
  have hlen := builtAdj_length hb
  have hwf := builtAdj_wf hval hb
  obtain ⟨res, hres⟩ := bellman_ford_total hlen hwf
  rcases res with _ | h
  · exact absurd
      ((builtAdj_negcycle_iff hb).mp (bellman_ford_none_negcycle hlen hwf hres))
      hnc
  obtain ⟨M, hjo, hMlen, hrows, hspec⟩ :=
    johnsons_matrix_spec num_nodes edges hval hb hres
  refine ⟨M, hjo, ?_⟩
  intro v hvn
  obtain ⟨hsome, hiff⟩ := hspec v v hvn hvn
  have hreach : Reachable edges v v := ⟨[], rfl⟩
  rcases hent : mEntry M v v with _ | d
  · exact absurd hreach (hiff.mp hent)
  · obtain ⟨⟨l, hl, hlw⟩, hmin⟩ := hsome d hent
    have hd₁ : d ≤ 0 := by
      have := hmin [] rfl
      rw [walkWeight_nil] at this
      exact this
    have hd₂ : 0 ≤ d := by
      cases l with
      | nil => rw [← hlw, walkWeight_nil]
      | cons s rest =>
        by_contra hneg
        exact hnc ⟨v, s :: rest, by simp, hl, by omega⟩
    obtain rfl : d = 0 := by omega
    rfl

/-- Witness for **C5** on the one-vertex empty graph. -/
theorem claim_C5_witness :
    ∃ M, johnsons_algorithm 1 [] = some (Except.ok M) ∧
      ∀ v, v < 1 → mEntry M v v = some 0 :=
  claim_C5 1 [] (by simp [ValidEdges]) no_negcycle_nil

/-- **C6**: the matrix returned by `johnsons_algorithm` on a well-formed
input with no negative cycle satisfies the triangle inequality: whenever
entries `(u, v)` and `(v, w)` are finite, entry `(u, w)` is finite and at
most their sum. -/
theorem claim_C6 (num_nodes : Nat) (edges : List (Nat × Nat × Int))
    (M : List (List (Option Int))) (hval : ValidEdges num_nodes edges)
    (hnc : ¬ HasNegCycle edges)
    (hjo : johnsons_algorithm num_nodes edges = some (Except.ok M)) :
    ∀ u v w, u < num_nodes → v < num_nodes → w < num_nodes →
      ∀ a b, mEntry M u v = some a → mEntry M v w = some b →
        ∃ c, mEntry M u w = some c ∧ c ≤ a + b := by
  obtain ⟨adj, hb⟩ := buildAdj_some edges (List.replicate num_nodes []) (by
    intro e he
    rw [List.length_replicate]
    exact (hval e he).1)
  have hlen := builtAdj_length hb
  have hwf := builtAdj_wf hval hb
  obtain ⟨res, hres⟩ := bellman_ford_total hlen hwf
  rcases res with _ | h
  · exact absurd
      ((builtAdj_negcycle_iff hb).mp (bellman_ford_none_negcycle hlen hwf hres))
      hnc
  obtain ⟨M', hjo', hMlen, hrows, hspec⟩ :=
    johnsons_matrix_spec num_nodes edges hval hb hres
  rw [hjo] at hjo'
  obtain rfl : M = M' := by
    have := hjo'
    simp only [Option.some.injEq] at this
    injection this
  intro u v w hu hv hw a b ha hb'
  obtain ⟨hsome_uv, -⟩ := hspec u v hu hv
  obtain ⟨hsome_vw, -⟩ := hspec v w hv hw
  obtain ⟨hsome_uw, hiff_uw⟩ := hspec u w hu hw
  obtain ⟨⟨l₁, hl₁, hw₁⟩, -⟩ := hsome_uv a ha
  obtain ⟨⟨l₂, hl₂, hw₂⟩, -⟩ := hsome_vw b hb'
  have hl₁₂ : chainW (edgeRel edges) u (l₁ ++ l₂) w :=
    chainW_append.mpr ⟨v, hl₁, hl₂⟩
  have hreach : Reachable edges u w := ⟨l₁ ++ l₂, hl₁₂⟩
  rcases hent : mEntry M u w with _ | c
  · exact absurd hreach (hiff_uw.mp hent)
  · obtain ⟨-, hmin⟩ := hsome_uw c hent
    have := hmin (l₁ ++ l₂) hl₁₂
    rw [walkWeight_append, hw₁, hw₂] at this
    exact ⟨c, rfl, this⟩

/-- Witness for **C6** on the one-vertex empty graph at `u = v = w = 0`. -/
theorem claim_C6_witness :
    ∃ c, mEntry [[some 0]] 0 0 = some c ∧ c ≤ 0 + 0 :=
  claim_C6 1 [] [[some 0]] (by simp [ValidEdges]) no_negcycle_nil
    (by rfl) 0 0 0 (by decide) (by decide) (by decide) 0 0 rfl rfl

/-- **C9**: on inputs whose edge endpoints all lie in `[0, num_nodes)` no
indexing panics — the model never returns the panic value `none` — while an
edge with an endpoint `≥ num_nodes` makes the program panic (outer `none`)
rather than return an `InvalidEdge`-style error value. -/
theorem claim_C9 :
    (∀ (num_nodes : Nat) (edges : List (Nat × Nat × Int)),
      ValidEdges num_nodes edges →
        johnsons_algorithm num_nodes edges ≠ none) ∧
    johnsons_algorithm 1 [(1, 0, 0)] = none := by
  constructor
  · intro n edges hval hnone
    obtain ⟨adj, hb⟩ := buildAdj_some edges (List.replicate n []) (by
      intro e he
      rw [List.length_replicate]
      exact (hval e he).1)
    have hlen := builtAdj_length hb
    have hwf := builtAdj_wf hval hb
    obtain ⟨res, hres⟩ := bellman_ford_total hlen hwf
    rcases res with _ | h
    · have := (johnsons_error_iff hb).mpr hres
      rw [this] at hnone
      exact absurd hnone (by simp)
    · obtain ⟨M, hjo, -⟩ := johnsons_matrix_spec n edges hval hb hres
      rw [hjo] at hnone
      exact absurd hnone (by simp)
  · rfl

/-- Witness for **C9** on the empty graph. -/
theorem claim_C9_witness : johnsons_algorithm 0 [] ≠ none :=
  claim_C9.1 0 [] (by simp [ValidEdges])

end APSP
